import Mathlib

/-!
# Turn-in-piece classification of the buffer algorithm

A shallow embedding of
`include/boost/geometry/algorithms/detail/buffer/turn_in_piece_visitor.hpp`:
the cheap classifier `analyse_turn_wrt_piece` and the orchestrator
`turn_in_piece_visitor`.

Conventions of the embedding.

* Robust coordinates are integers (`Int`) stored in a 64-bit signed
  `coordinate_type`. The rescaling that produces robust points keeps their
  differences and the products of two differences in range, so `side_value`
  and `comparable_distance` are exact. The square of the twice-signed-area in
  `check_segment` is a product of four differences and can leave the range:
  it is computed with the wrap-around of the coordinate type
  (`to_coordinate_type`).
* `int` fields that are indices (`index`, `left_index`, `piece_index`,
  `turn_index`) and the counters are `Int`; `offsetted_count` is a count of
  points and so a `Nat`. Sizes and counters stay within the range of `int`,
  the wrap-around of `++` and of `size() - offsetted_count` is not modelled.
* Reading a container outside its range is undefined in the source; every
  read is an `Option` here and the functions return `none` in that case.
-/

namespace boost_geometry

/-- A robust point: a pair of integer coordinates, compared exactly. -/
structure Point where
  x : Int
  y : Int
deriving DecidableEq, Repr

/-- Modelled from the spec: the box type (`geometry::model::box`) is declared
outside the file; it is a closed axis-parallel rectangle given by two corners. -/
structure Box where
  min_corner : Point
  max_corner : Point
deriving DecidableEq, Repr

/-- Modelled from the spec: `strategy::buffer::piece_type` is declared outside
the file. The code distinguishes only `buffered_flat_end` and
`buffered_concave` from the other kinds. -/
inductive piece_type where
  | buffered_segment
  | buffered_join
  | buffered_round_end
  | buffered_flat_end
  | buffered_point
  | buffered_concave
deriving DecidableEq, Repr

/-- Modelled from the spec: the piece type is declared outside the file; these
are the members the file reads. `offsetted_count` is the number of leading
points of `robust_ring` that belong to the offset curve. -/
structure Piece where
  type : piece_type
  index : Int
  left_index : Int
  right_index : Int
  robust_ring : List Point
  offsetted_count : Nat
  robust_envelope : Box
  robust_offsetted_envelope : Box
deriving DecidableEq, Repr

/-- Modelled from the spec: a turn operation, of which the file reads only the
index of the generating piece. -/
structure turn_operation where
  piece_index : Int
deriving DecidableEq, Repr

/-- Modelled from the spec: the turn type is declared outside the file; these
are the members the file reads or writes. `operations_0` and `operations_1`
are the two entries of the array `operations[2]`. -/
structure Turn where
  robust_point : Point
  operations_0 : turn_operation
  operations_1 : turn_operation
  turn_index : Int
  count_within : Int
  count_on_offsetted : Int
  count_on_original_boundary : Int
  count_within_near_offsetted : Int
deriving DecidableEq, Repr

/-- The enumeration `analyse_result`. -/
inductive analyse_result where
  | analyse_unknown
  | analyse_continue
  | analyse_disjoint
  | analyse_within
  | analyse_on_original_boundary
  | analyse_on_offsetted
  | analyse_near_offsetted
deriving DecidableEq, Repr

open analyse_result

/-! ## Supplied geometric primitives -/

/-- Modelled from the spec: the twice-signed-area of the triangle
`(p1, p2, p)` computed by the side strategy (`side_value`); positive when `p`
is left of the directed segment `p1 -> p2`, negative when right, zero when
collinear. -/
def side_value (p1 p2 p : Point) : Int :=
  (p2.x - p1.x) * (p.y - p1.y) - (p2.y - p1.y) * (p.x - p1.x)

/-- Modelled from the spec: the orientation predicate of the side strategy
(`side_strategy::apply`): `1` left, `-1` right, `0` collinear. -/
def side (p1 p2 p : Point) : Int :=
  let s := side_value p1 p2 p
  if s = 0 then 0 else if s > 0 then 1 else -1

/-- Modelled from the spec: `geometry::comparable_distance` of two points, the
squared distance. -/
def comparable_distance (p q : Point) : Int :=
  (p.x - q.x) * (p.x - q.x) + (p.y - q.y) * (p.y - q.y)

/-- Modelled from the spec: `geometry::covered_by` of a point and a box, with
closed-box semantics. -/
def covered_by (p : Point) (b : Box) : Bool :=
  decide (b.min_corner.x ≤ p.x) && decide (p.x ≤ b.max_corner.x)
    && decide (b.min_corner.y ≤ p.y) && decide (p.y ≤ b.max_corner.y)

/-- The box obtained by `assign_inverse` followed by `expand` with the two
points: their bounding box. -/
def segment_box (s1 s2 : Point) : Box :=
  { min_corner := ⟨min s1.x s2.x, min s1.y s2.y⟩
    max_corner := ⟨max s1.x s2.x, max s1.y s2.y⟩ }

/-- Modelled from the spec: the coordinate type of robust points is declared
outside the file, a 64-bit signed integer. This is the value that an
arithmetic result has once it is stored in that type: it wraps around modulo
`2 ^ 64` into the range from `-2 ^ 63` to `2 ^ 63 - 1`. -/
def to_coordinate_type (z : Int) : Int :=
  (z + 9223372036854775808) % 18446744073709551616 - 9223372036854775808

namespace analyse_turn_wrt_piece

/-- The function `check_segment`: one segment of the offset curve. The product
`twice_area * twice_area` is formed in the coordinate type. -/
def check_segment (previous current point : Point) : analyse_result :=
  let box := segment_box previous current
  let twice_area := side_value previous current point
  if twice_area = 0 ∧ covered_by point box = true then
    analyse_on_offsetted
  else if twice_area < 0 ∧ covered_by point box = true then
    if to_coordinate_type (twice_area * twice_area)
        < comparable_distance previous current then
      analyse_near_offsetted
    else
      analyse_continue
  else
    analyse_continue

/-- The function `check_helper_segment`: one helper edge `s1 -> s2`. -/
def check_helper_segment (s1 s2 point : Point) (is_original : Bool)
    (offsetted : Point) : analyse_result :=
  let sd := side s1 s2 point
  if sd = 1 then
    analyse_disjoint
  else if sd = 0 then
    let box := segment_box s1 s2
    if covered_by point box = true then
      if is_original = false ∧ comparable_distance point offsetted ≤ 1 then
        analyse_near_offsetted
      else if is_original = true then
        analyse_on_original_boundary
      else
        analyse_within
    else
      analyse_disjoint
  else
    analyse_continue

/-- The part of `check_helper_segments` after the array `points` is filled:
`p0 .. p3` are `points[0] .. points[3]`. -/
def check_helper_points (point : Point) (piece : Piece)
    (p0 p1 p2 p3 : Point) : analyse_result :=
  if point = p0 ∨ point = p3 then
    analyse_on_offsetted
  else if point = p1 ∨ point = p2 then
    analyse_on_original_boundary
  else
    let result := check_helper_segment p0 p1 point false p0
    if result ≠ analyse_continue then
      result
    else
      let result := check_helper_segment p2 p3 point false p3
      if result ≠ analyse_continue then
        result
      else
        let result :=
          if p1 ≠ p2 then check_helper_segment p1 p2 point true point
          else analyse_continue
        if result ≠ analyse_continue then
          result
        else if covered_by point piece.robust_offsetted_envelope = false then
          let sd := side p3 p0 point
          if sd = 1 then analyse_disjoint
          else if sd = -1 then analyse_within
          else if sd = 0 then analyse_disjoint
          else analyse_continue
        else
          analyse_continue

/-- The number `helper_count` of `check_helper_segments`. -/
def helper_count (piece : Piece) : Int :=
  (piece.robust_ring.length : Int) - (piece.offsetted_count : Int)

/-- The function `check_helper_segments`. -/
def check_helper_segments (point : Point) (piece : Piece) :
    Option analyse_result :=
  let ring := piece.robust_ring
  let oc := piece.offsetted_count
  if helper_count piece = 4 then
    match ring[oc + 0]?, ring[oc + 1]?, ring[oc + 2]?, ring[oc + 3]? with
    | some p0, some p1, some p2, some p3 =>
      some (check_helper_points point piece p0 p1 p2 p3)
    | _, _, _, _ => none
  else if helper_count piece = 3 then
    match ring[oc + 0]?, ring[oc + 1]?, ring[oc + (2 - 1)]?,
        ring[oc + (3 - 1)]? with
    | some p0, some p1, some p2, some p3 =>
      some (check_helper_points point piece p0 p1 p2 p3)
    | _, _, _, _ => none
  else
    some analyse_continue

/-- The loop of `apply` over the offset curve, at index `i` with `n`
iterations left (the loop `for (i = 1; i < offsetted_count; i++)` makes
`offsetted_count - 1` of them). -/
def ring_scan (point : Point) (ring : List Point) :
    Nat → Nat → Option analyse_result
  | _, 0 => some analyse_unknown
  | i, n + 1 =>
    match ring[i - 1]?, ring[i]? with
    | some previous, some current =>
      if previous ≠ current then
        let code := check_segment previous current point
        if code ≠ analyse_continue then some code
        else ring_scan point ring (i + 1) n
      else ring_scan point ring (i + 1) n
    | _, _ => none

/-- The public classifier `analyse_turn_wrt_piece::apply`. -/
def apply (point : Point) (piece : Piece) : Option analyse_result :=
  match check_helper_segments point piece with
  | none => none
  | some code =>
    if code ≠ analyse_continue then some code
    else ring_scan point piece.robust_ring 1 (piece.offsetted_count - 1)

end analyse_turn_wrt_piece

/-! ## The orchestrator -/

/-- Reading a container at an `int` index: `none` outside the range. -/
def index_get {α : Type} (xs : List α) (i : Int) : Option α :=
  if 0 ≤ i then xs[i.toNat]? else none

/-- Writing a container at an `int` index that is in range. -/
def index_set {α : Type} (xs : List α) (i : Int) (v : α) : List α :=
  xs.set i.toNat v

/-- Outcome of the loop over the two operations of a turn: the call returns
at once, or goes on with the flag `neighbour`. -/
inductive neighbour_result where
  | rejected
  | proceed (neighbour : Bool)
deriving DecidableEq, Repr

namespace turn_in_piece_visitor

/-- One iteration of the loop `for (int i = 0; i < 2; i++)` of `apply`, for
the operation `op`, entered with the flag `neighbour`. -/
def neighbour_step (m_pieces : List Piece) (op : turn_operation)
    (piece : Piece) (neighbour : Bool) : Option neighbour_result :=
  if op.piece_index = piece.index then
    some neighbour_result.rejected
  else
    match index_get m_pieces op.piece_index with
    | none => none
    | some pc =>
      if pc.left_index = piece.index ∨ pc.right_index = piece.index then
        if pc.type = piece_type.buffered_flat_end then
          some neighbour_result.rejected
        else if pc.type = piece_type.buffered_concave then
          some neighbour_result.rejected
        else
          some (neighbour_result.proceed true)
      else
        some (neighbour_result.proceed neighbour)

/-- The loop over the two operations of the turn. -/
def neighbour_loop (m_pieces : List Piece) (turn : Turn) (piece : Piece) :
    Option neighbour_result :=
  match neighbour_step m_pieces turn.operations_0 piece false with
  | none => none
  | some neighbour_result.rejected => some neighbour_result.rejected
  | some (neighbour_result.proceed neighbour) =>
    neighbour_step m_pieces turn.operations_1 piece neighbour

/-- The statement `mutable_turn.count_on_offsetted++`. -/
def inc_on_offsetted (t : Turn) : Turn :=
  { t with count_on_offsetted := t.count_on_offsetted + 1 }

/-- The statement `mutable_turn.count_on_original_boundary++`. -/
def inc_on_original_boundary (t : Turn) : Turn :=
  { t with count_on_original_boundary := t.count_on_original_boundary + 1 }

/-- The statement `mutable_turn.count_within++`. -/
def inc_within (t : Turn) : Turn :=
  { t with count_within := t.count_within + 1 }

/-- The statement `mutable_turn.count_within_near_offsetted++`. -/
def inc_within_near_offsetted (t : Turn) : Turn :=
  { t with count_within_near_offsetted := t.count_within_near_offsetted + 1 }

/-- The end of `apply`, from the call of `point_in_geometry` on:
`geometry_code` is the answer of the oracle (`-1` outside, `0` on the
boundary, `1` inside). -/
def exact_fallback (m_turns : List Turn) (turn : Turn) (mutable_turn : Turn)
    (neighbour : Bool) (analyse_code : analyse_result) (geometry_code : Int) :
    List Turn :=
  if geometry_code = -1 then
    m_turns
  else if geometry_code = 0 ∧ neighbour = true then
    m_turns
  else
    match analyse_code with
    | analyse_on_offsetted =>
      index_set m_turns turn.turn_index (inc_on_offsetted mutable_turn)
    | analyse_near_offsetted =>
      if geometry_code = 1 then
        index_set m_turns turn.turn_index
          (inc_within_near_offsetted mutable_turn)
      else
        m_turns
    | _ => index_set m_turns turn.turn_index (inc_within mutable_turn)

/-- The first `switch` of `apply` and what follows it. -/
def dispatch (point_in_geometry : Point → List Point → Int)
    (m_turns : List Turn) (turn : Turn) (piece : Piece)
    (mutable_turn : Turn) (neighbour : Bool)
    (analyse_code : analyse_result) : List Turn :=
  match analyse_code with
  | analyse_disjoint => m_turns
  | analyse_on_offsetted =>
    index_set m_turns turn.turn_index (inc_on_offsetted mutable_turn)
  | analyse_on_original_boundary =>
    index_set m_turns turn.turn_index (inc_on_original_boundary mutable_turn)
  | analyse_within =>
    index_set m_turns turn.turn_index (inc_within mutable_turn)
  | _ =>
    exact_fallback m_turns turn mutable_turn neighbour analyse_code
      (point_in_geometry turn.robust_point piece.robust_ring)

/-- The member function `turn_in_piece_visitor::apply`. The exact
point-in-polygon oracle `point_in_geometry` is supplied from outside;
`m_turns` and `m_pieces` are the two members of the visitor, and the result
is the new content of `m_turns`. -/
def apply (point_in_geometry : Point → List Point → Int)
    (m_pieces : List Piece) (m_turns : List Turn) (turn : Turn)
    (piece : Piece) : Option (List Turn) :=
  if turn.count_within > 0 then
    some m_turns
  else if piece.type = piece_type.buffered_flat_end
      ∨ piece.type = piece_type.buffered_concave then
    some m_turns
  else if covered_by turn.robust_point piece.robust_envelope = false then
    some m_turns
  else
    match neighbour_loop m_pieces turn piece with
    | none => none
    | some neighbour_result.rejected => some m_turns
    | some (neighbour_result.proceed neighbour) =>
      match analyse_turn_wrt_piece.apply turn.robust_point piece with
      | none => none
      | some analyse_code =>
        match index_get m_turns turn.turn_index with
        | none => none
        | some mutable_turn =>
          some (dispatch point_in_geometry m_turns turn piece mutable_turn
            neighbour analyse_code)

/-- A sweep of calls for the turn stored at `idx`: each call is passed the
current state of that turn in the collection. -/
def sweep (point_in_geometry : Point → List Point → Int)
    (m_pieces : List Piece) (idx : Int) :
    List Turn → List Piece → Option (List Turn)
  | m_turns, [] => some m_turns
  | m_turns, piece :: rest =>
    match index_get m_turns idx with
    | none => none
    | some turn =>
      match apply point_in_geometry m_pieces m_turns turn piece with
      | none => none
      | some m_turns1 => sweep point_in_geometry m_pieces idx m_turns1 rest

end turn_in_piece_visitor

/-! ## Vocabulary of the statements -/

/-- The four conceptual helper corners of a piece: the points that follow the
offset curve in the ring, the middle one counted twice when there are three. -/

def has_helper_corners (piece : Piece) (H0 H1 H2 H3 : Point) : Prop :=
  piece.robust_ring.drop piece.offsetted_count = [H0, H1, H2, H3]
    ∨ (piece.robust_ring.drop piece.offsetted_count = [H0, H1, H3] ∧ H2 = H1)

instance (piece : Piece) (H0 H1 H2 H3 : Point) :
    Decidable (has_helper_corners piece H0 H1 H2 H3) := by
  unfold has_helper_corners; infer_instance

/-- The results a scan of the offset curve can end with. -/
def is_scan_result (r : analyse_result) : Prop :=
  r = analyse_on_offsetted ∨ r = analyse_near_offsetted ∨ r = analyse_unknown

/-- The piece kinds on which the orchestrator returns at once. -/
def is_flat_or_concave (t : piece_type) : Prop :=
  t = piece_type.buffered_flat_end ∨ t = piece_type.buffered_concave

instance (t : piece_type) : Decidable (is_flat_or_concave t) := by
  unfold is_flat_or_concave; infer_instance

/-- The piece `piece` is the left or the right neighbour of the piece `g`. -/
def is_neighbour_of (g piece : Piece) : Prop :=
  g.left_index = piece.index ∨ g.right_index = piece.index

instance (g piece : Piece) : Decidable (is_neighbour_of g piece) := by
  unfold is_neighbour_of; infer_instance

/-- No rejection rule of the orchestrator fires for the turn and the piece;
`g0` and `g1` are the two generating pieces of the turn. -/
def passes_rejection_rules (m_pieces : List Piece) (turn : Turn)
    (piece g0 g1 : Piece) : Prop :=
  turn.count_within ≤ 0
    ∧ ¬ is_flat_or_concave piece.type
    ∧ covered_by turn.robust_point piece.robust_envelope = true
    ∧ index_get m_pieces turn.operations_0.piece_index = some g0
    ∧ index_get m_pieces turn.operations_1.piece_index = some g1
    ∧ turn.operations_0.piece_index ≠ piece.index
    ∧ turn.operations_1.piece_index ≠ piece.index
    ∧ (is_neighbour_of g0 piece → ¬ is_flat_or_concave g0.type)
    ∧ (is_neighbour_of g1 piece → ¬ is_flat_or_concave g1.type)

instance (m_pieces : List Piece) (turn : Turn) (piece g0 g1 : Piece) :
    Decidable (passes_rejection_rules m_pieces turn piece g0 g1) := by
  unfold passes_rejection_rules; infer_instance

/-- The point lies on the closed segment `s1 s2`: it is collinear with it and
covered by its bounding box. -/
def on_segment (s1 s2 point : Point) : Prop :=
  side s1 s2 point = 0 ∧ covered_by point (segment_box s1 s2) = true

instance (s1 s2 point : Point) : Decidable (on_segment s1 s2 point) := by
  unfold on_segment; infer_instance

/-- The turn `t1` is the turn `t` with at most its counters changed. -/
def same_identity (t t1 : Turn) : Prop :=
  t1.robust_point = t.robust_point ∧ t1.operations_0 = t.operations_0
    ∧ t1.operations_1 = t.operations_1 ∧ t1.turn_index = t.turn_index

/-- The sum of the four counters of a turn. -/
def counter_sum (t : Turn) : Int :=
  t.count_within + t.count_on_offsetted + t.count_on_original_boundary
    + t.count_within_near_offsetted

/-- No counter of `t1` is below the counter of `t`. -/
def counters_le (t t1 : Turn) : Prop :=
  t.count_within ≤ t1.count_within
    ∧ t.count_on_offsetted ≤ t1.count_on_offsetted
    ∧ t.count_on_original_boundary ≤ t1.count_on_original_boundary
    ∧ t.count_within_near_offsetted ≤ t1.count_within_near_offsetted

/-- Follows the spec's words (the design that branches on the shape of the
piece): the helper stage of a triangular piece with helper points `A`, `B`,
`C`. There is no original-boundary edge: after the equality tests come the
right edge `A -> B`, the left edge `B -> C` and the interior shortcut against
`C -> A`. -/
def check_triangle_points (point : Point) (offsetted_envelope : Box)
    (A B C : Point) : analyse_result :=
  if point = A ∨ point = C then
    analyse_on_offsetted
  else if point = B then
    analyse_on_original_boundary
  else
    let right := analyse_turn_wrt_piece.check_helper_segment A B point false A
    if right ≠ analyse_continue then
      right
    else
      let left := analyse_turn_wrt_piece.check_helper_segment B C point false C
      if left ≠ analyse_continue then
        left
      else if covered_by point offsetted_envelope = false then
        if side C A point = -1 then analyse_within else analyse_disjoint
      else
        analyse_continue

/-- Follows the spec's words: the verdict of one segment of the offset curve,
`none` when the segment is a duplicate point or not decisive. Case (a): the
twice-signed-area is zero and the point is covered by the box of the segment.
Case (b): the area is negative, the point is covered by the box of the segment
and the area squared is less than the squared length of the segment. -/
def decisive_verdict (previous current P : Point) : Option analyse_result :=
  if previous = current then
    none
  else if side_value previous current P = 0
      ∧ covered_by P (segment_box previous current) = true then
    some analyse_on_offsetted
  else if side_value previous current P < 0
      ∧ covered_by P (segment_box previous current) = true
      ∧ side_value previous current P * side_value previous current P
        < comparable_distance previous current then
    some analyse_near_offsetted
  else
    none

/-- The verdict of the segment `(ring[i-1], ring[i])`. -/
def verdict_at (P : Point) (ring : List Point) (i : Nat) :
    Option analyse_result :=
  match ring[i - 1]?, ring[i]? with
  | some previous, some current => decisive_verdict previous current P
  | _, _ => none

/-- Follows the spec's words: the verdict of the first decisive segment among
the segments `i = 1 .. offsetted_count - 1`, in increasing order. -/
def first_decisive_segment (P : Point) (ring : List Point)
    (offsetted_count : Nat) : Option analyse_result :=
  (List.range' 1 (offsetted_count - 1)).findSome? (verdict_at P ring)

/-- The square of the twice-signed-area of `(previous, current, P)` fits the
coordinate type. -/
def square_in_range (previous current P : Point) : Prop :=
  side_value previous current P * side_value previous current P
    < 9223372036854775808

instance (previous current P : Point) :
    Decidable (square_in_range previous current P) := by
  unfold square_in_range; infer_instance

/-! ## Concrete pieces and turns -/

/-- A side piece: the offset segment `(0,0) -> (10,10)` and the helper
corners `(10,10)`, `(14,6)`, `(4,-4)`, `(0,0)`, a rectangle traversed
clockwise. It is piece 2 of `example_pieces`. -/
def side_piece : Piece where
  type := piece_type.buffered_segment
  index := 2
  left_index := 3
  right_index := 0
  robust_ring := [⟨0, 0⟩, ⟨10, 10⟩, ⟨10, 10⟩, ⟨14, 6⟩, ⟨4, -4⟩, ⟨0, 0⟩]
  offsetted_count := 2
  robust_envelope := ⟨⟨0, -4⟩, ⟨14, 10⟩⟩
  robust_offsetted_envelope := ⟨⟨0, 0⟩, ⟨10, 10⟩⟩

/-- A piece with two offset points and two further points: the ring
`[O0, O1, B0, B1]` of a square. -/
def two_helper_piece : Piece where
  type := piece_type.buffered_segment
  index := 0
  left_index := 1
  right_index := 2
  robust_ring := [⟨0, 10⟩, ⟨10, 10⟩, ⟨10, 0⟩, ⟨0, 0⟩]
  offsetted_count := 2
  robust_envelope := ⟨⟨0, 0⟩, ⟨10, 10⟩⟩
  robust_offsetted_envelope := ⟨⟨0, 10⟩, ⟨10, 10⟩⟩

/-- A join piece whose first helper corner coincides with the second: the
helper points are `(10,0)`, `(10,0)`, `(0,-5)`, `(0,0)`. -/
def coincident_corner_piece : Piece where
  type := piece_type.buffered_join
  index := 0
  left_index := 1
  right_index := 2
  robust_ring := [⟨0, 0⟩, ⟨10, 0⟩, ⟨10, 0⟩, ⟨10, 0⟩, ⟨0, -5⟩, ⟨0, 0⟩]
  offsetted_count := 2
  robust_envelope := ⟨⟨0, -5⟩, ⟨10, 0⟩⟩
  robust_offsetted_envelope := ⟨⟨0, 0⟩, ⟨10, 0⟩⟩

/-- A cap piece with axis-parallel helper edges: the offset segment
`(0,0) -> (10,0)` and the helper corners `(10,0)`, `(10,-5)`, `(0,-5)`,
`(0,0)`. It is piece 3 of `example_pieces`. -/
def cap_piece : Piece where
  type := piece_type.buffered_segment
  index := 3
  left_index := 2
  right_index := -1
  robust_ring := [⟨0, 0⟩, ⟨10, 0⟩, ⟨10, 0⟩, ⟨10, -5⟩, ⟨0, -5⟩, ⟨0, 0⟩]
  offsetted_count := 2
  robust_envelope := ⟨⟨0, -5⟩, ⟨10, 0⟩⟩
  robust_offsetted_envelope := ⟨⟨0, 0⟩, ⟨10, 0⟩⟩

/-- Piece 0 of `example_pieces`. -/
def first_piece : Piece where
  type := piece_type.buffered_segment
  index := 0
  left_index := -1
  right_index := 1
  robust_ring := [⟨20, 0⟩, ⟨30, 0⟩, ⟨30, 0⟩, ⟨30, -5⟩, ⟨20, -5⟩, ⟨20, 0⟩]
  offsetted_count := 2
  robust_envelope := ⟨⟨20, -5⟩, ⟨30, 0⟩⟩
  robust_offsetted_envelope := ⟨⟨20, 0⟩, ⟨30, 0⟩⟩

/-- Piece 1 of `example_pieces`, whose right neighbour is `side_piece`. -/
def second_piece : Piece where
  type := piece_type.buffered_join
  index := 1
  left_index := 0
  right_index := 2
  robust_ring := [⟨30, 0⟩, ⟨32, -2⟩, ⟨32, -2⟩, ⟨30, -5⟩, ⟨30, 0⟩]
  offsetted_count := 2
  robust_envelope := ⟨⟨30, -5⟩, ⟨32, 0⟩⟩
  robust_offsetted_envelope := ⟨⟨30, -2⟩, ⟨32, 0⟩⟩

/-- A chain of four pieces; piece `i` is stored at position `i`. -/
def example_pieces : List Piece :=
  [first_piece, second_piece, side_piece, cap_piece]

/-- A turn of pieces 0 and 1 in the middle of the helper edge
`(10,10) -> (14,6)` of `side_piece`. -/
def turn_on_helper_edge : Turn where
  robust_point := ⟨12, 8⟩
  operations_0 := ⟨0⟩
  operations_1 := ⟨1⟩
  turn_index := 0
  count_within := 0
  count_on_offsetted := 0
  count_on_original_boundary := 0
  count_within_near_offsetted := 0

/-- A turn of pieces 0 and 1 on the helper edge `(10,0) -> (10,-5)` of
`cap_piece`, one unit from the corner `(10,0)`. -/
def turn_near_corner : Turn where
  robust_point := ⟨10, -1⟩
  operations_0 := ⟨0⟩
  operations_1 := ⟨1⟩
  turn_index := 1
  count_within := 0
  count_on_offsetted := 0
  count_on_original_boundary := 0
  count_within_near_offsetted := 0

/-- A turn of pieces 1 and 2 at the same point as `turn_near_corner`; piece 2
has `cap_piece` as its right neighbour. -/
def turn_of_neighbour : Turn where
  robust_point := ⟨10, -1⟩
  operations_0 := ⟨1⟩
  operations_1 := ⟨2⟩
  turn_index := 2
  count_within := 0
  count_on_offsetted := 0
  count_on_original_boundary := 0
  count_within_near_offsetted := 0

/-- The turn collection of the examples; turn `i` is stored at position `i`. -/
def example_turns : List Turn :=
  [turn_on_helper_edge, turn_near_corner, turn_of_neighbour]

/-- The answer of the exact oracle for a point on an edge of the ring, which
is where the points of the example turns lie. -/
def on_boundary_oracle : Point → List Point → Int :=
  fun _ _ => 0

/-- A triangular join piece: the offset segment `(0,0) -> (10,10)` and the
three helper points `(10,10)`, `(14,6)`, `(0,0)`. -/
def triangle_piece : Piece where
  type := piece_type.buffered_join
  index := 4
  left_index := 3
  right_index := 5
  robust_ring := [⟨0, 0⟩, ⟨10, 10⟩, ⟨10, 10⟩, ⟨14, 6⟩, ⟨0, 0⟩]
  offsetted_count := 2
  robust_envelope := ⟨⟨0, 0⟩, ⟨14, 10⟩⟩
  robust_offsetted_envelope := ⟨⟨0, 0⟩, ⟨10, 10⟩⟩

/-- The piece `triangle_piece` with its middle helper point written twice. -/
def doubled_triangle_piece : Piece where
  type := piece_type.buffered_join
  index := 4
  left_index := 3
  right_index := 5
  robust_ring := [⟨0, 0⟩, ⟨10, 10⟩, ⟨10, 10⟩, ⟨14, 6⟩, ⟨14, 6⟩, ⟨0, 0⟩]
  offsetted_count := 2
  robust_envelope := ⟨⟨0, 0⟩, ⟨14, 10⟩⟩
  robust_offsetted_envelope := ⟨⟨0, 0⟩, ⟨10, 10⟩⟩

/-- The piece `side_piece` with its first offset point written twice. -/
def side_piece_duplicated : Piece where
  type := piece_type.buffered_segment
  index := 2
  left_index := 3
  right_index := 0
  robust_ring :=
    [⟨0, 0⟩, ⟨0, 0⟩, ⟨10, 10⟩, ⟨10, 10⟩, ⟨14, 6⟩, ⟨4, -4⟩, ⟨0, 0⟩]
  offsetted_count := 3
  robust_envelope := ⟨⟨0, -4⟩, ⟨14, 10⟩⟩
  robust_offsetted_envelope := ⟨⟨0, 0⟩, ⟨10, 10⟩⟩

/-- Piece 0 of `chain_pieces`: the side piece of the original segment
`(0,0) -> (10,0)` with offset segment `(0,5) -> (10,5)`. Its helper corners are
`(10,5)`, `(10,0)`, `(0,0)`, `(0,5)`; its right neighbour is piece 1. -/
def chain_first_piece : Piece where
  type := piece_type.buffered_segment
  index := 0
  left_index := -1
  right_index := 1
  robust_ring := [⟨0, 5⟩, ⟨10, 5⟩, ⟨10, 5⟩, ⟨10, 0⟩, ⟨0, 0⟩, ⟨0, 5⟩]
  offsetted_count := 2
  robust_envelope := ⟨⟨0, 0⟩, ⟨10, 5⟩⟩
  robust_offsetted_envelope := ⟨⟨0, 5⟩, ⟨10, 5⟩⟩

/-- Piece 1 of `chain_pieces`: the side piece of the next original segment
`(10,0) -> (20,0)` with offset segment `(10,5) -> (20,5)`. Its helper corners
are `(20,5)`, `(20,0)`, `(10,0)`, `(10,5)`: its left helper edge `H2->H3` is the
right helper edge `H0->H1` of piece 0, traversed the other way. -/
def chain_second_piece : Piece where
  type := piece_type.buffered_segment
  index := 1
  left_index := 0
  right_index := -1
  robust_ring := [⟨10, 5⟩, ⟨20, 5⟩, ⟨20, 5⟩, ⟨20, 0⟩, ⟨10, 0⟩, ⟨10, 5⟩]
  offsetted_count := 2
  robust_envelope := ⟨⟨10, 0⟩, ⟨20, 5⟩⟩
  robust_offsetted_envelope := ⟨⟨10, 5⟩, ⟨20, 5⟩⟩

/-- Piece 2 of `chain_pieces`: a side piece of another part of the geometry
whose offset segment `(6,2) -> (14,2)` crosses the edge shared by pieces 0 and
1 at `(10,2)`. -/
def lower_crossing_piece : Piece where
  type := piece_type.buffered_segment
  index := 2
  left_index := -1
  right_index := -1
  robust_ring := [⟨6, 2⟩, ⟨14, 2⟩, ⟨14, 2⟩, ⟨14, -3⟩, ⟨6, -3⟩, ⟨6, 2⟩]
  offsetted_count := 2
  robust_envelope := ⟨⟨6, -3⟩, ⟨14, 2⟩⟩
  robust_offsetted_envelope := ⟨⟨6, 2⟩, ⟨14, 2⟩⟩

/-- Piece 3 of `chain_pieces`: a side piece whose offset segment
`(14,4) -> (6,4)` crosses the edge shared by pieces 0 and 1 at `(10,4)`. -/
def upper_crossing_piece : Piece where
  type := piece_type.buffered_segment
  index := 3
  left_index := -1
  right_index := -1
  robust_ring := [⟨14, 4⟩, ⟨6, 4⟩, ⟨6, 4⟩, ⟨6, 9⟩, ⟨14, 9⟩, ⟨14, 4⟩]
  offsetted_count := 2
  robust_envelope := ⟨⟨6, 4⟩, ⟨14, 9⟩⟩
  robust_offsetted_envelope := ⟨⟨6, 4⟩, ⟨14, 4⟩⟩

/-- Two adjacent side pieces and two pieces crossing their shared edge; piece
`i` is stored at position `i`. -/
def chain_pieces : List Piece :=
  [chain_first_piece, chain_second_piece, lower_crossing_piece,
    upper_crossing_piece]

/-- The turn of pieces 0 and 2 at `(10,2)`, on the edge that piece 0 shares
with its right neighbour, piece 1. -/
def turn_on_shared_edge : Turn where
  robust_point := ⟨10, 2⟩
  operations_0 := ⟨0⟩
  operations_1 := ⟨2⟩
  turn_index := 0
  count_within := 0
  count_on_offsetted := 0
  count_on_original_boundary := 0
  count_within_near_offsetted := 0

/-- The turn of pieces 0 and 3 at `(10,4)`, on the same shared edge, one unit
from its offset-side corner `(10,5)`. -/
def turn_near_shared_corner : Turn where
  robust_point := ⟨10, 4⟩
  operations_0 := ⟨0⟩
  operations_1 := ⟨3⟩
  turn_index := 1
  count_within := 0
  count_on_offsetted := 0
  count_on_original_boundary := 0
  count_within_near_offsetted := 0

/-- The turn collection of the chain; turn `i` is stored at position `i`. -/
def chain_turns : List Turn :=
  [turn_on_shared_edge, turn_near_shared_corner]

/-- A side piece of width `65536 * sqrt 2`: the offset segment
`(0,0) -> (65536,65536)` and the helper corners `(65536,65536)`, `(131072,0)`,
`(65536,-65536)`, `(0,0)`, a square traversed clockwise. -/
def thick_piece : Piece where
  type := piece_type.buffered_segment
  index := 0
  left_index := -1
  right_index := -1
  robust_ring :=
    [⟨0, 0⟩, ⟨65536, 65536⟩, ⟨65536, 65536⟩, ⟨131072, 0⟩, ⟨65536, -65536⟩,
      ⟨0, 0⟩]
  offsetted_count := 2
  robust_envelope := ⟨⟨0, -65536⟩, ⟨131072, 65536⟩⟩
  robust_offsetted_envelope := ⟨⟨0, 0⟩, ⟨65536, 65536⟩⟩

/-! ## The helper stage -/

open analyse_turn_wrt_piece

/-- The helper count is the length of the non-empty tail after the offset
curve. -/
theorem helper_count_of_drop {piece : Piece} {l : List Point}
    (h : piece.robust_ring.drop piece.offsetted_count = l) (hl : l ≠ []) :
    helper_count piece = (l.length : Int) := by
  have h1 := congrArg List.length h
  rw [List.length_drop] at h1
  have h2 : 0 < l.length := List.length_pos.mpr hl
  unfold helper_count
  omega

/-- Reading the ring after the offset curve is reading the tail. -/
theorem getElem?_of_drop {piece : Piece} {l : List Point}
    (h : piece.robust_ring.drop piece.offsetted_count = l) (i : Nat) :
    piece.robust_ring[piece.offsetted_count + i]? = l[i]? := by
  rw [← h, List.getElem?_drop]

/-- The helper stage in terms of the helper corners. -/
theorem check_helper_segments_of_corners {piece : Piece} {H0 H1 H2 H3 : Point}
    (h : has_helper_corners piece H0 H1 H2 H3) (point : Point) :
    check_helper_segments point piece
      = some (check_helper_points point piece H0 H1 H2 H3) := by
  rcases h with h | ⟨h, rfl⟩
  · have hc := helper_count_of_drop h (by simp)
    simp only [check_helper_segments, hc, getElem?_of_drop h]
    simp
  · have hc := helper_count_of_drop h (by simp)
    simp only [check_helper_segments, hc, getElem?_of_drop h]
    simp

/-- A piece has 3 or 4 helper points exactly when it has helper corners. -/
theorem helper_count_iff (piece : Piece) :
    (helper_count piece = 3 ∨ helper_count piece = 4)
      ↔ ∃ H0 H1 H2 H3, has_helper_corners piece H0 H1 H2 H3 := by
  constructor
  · intro h
    have hlen : (piece.robust_ring.drop piece.offsetted_count).length = 3
        ∨ (piece.robust_ring.drop piece.offsetted_count).length = 4 := by
      rw [List.length_drop]; unfold helper_count at h; omega
    rcases hlen with h3 | h4
    · match hd : piece.robust_ring.drop piece.offsetted_count, h3 with
      | [a, b, c], _ => exact ⟨a, b, b, c, Or.inr ⟨hd, rfl⟩⟩
    · match hd : piece.robust_ring.drop piece.offsetted_count, h4 with
      | [a, b, c, d], _ => exact ⟨a, b, c, d, Or.inl hd⟩
  · rintro ⟨H0, H1, H2, H3, h | ⟨h, _⟩⟩
    · right; simpa using helper_count_of_drop h (by simp)
    · left; simpa using helper_count_of_drop h (by simp)

/-- A helper edge with the point strictly on its right is passed over. -/
theorem check_helper_segment_of_right {s1 s2 point : Point}
    (h : side s1 s2 point = -1) (is_original : Bool) (offsetted : Point) :
    check_helper_segment s1 s2 point is_original offsetted
      = analyse_continue := by
  simp [check_helper_segment, h]

/-- A point strictly on one side of a segment is none of its end points. -/
theorem ne_of_side_ne_zero {s1 s2 point : Point} (h : side s1 s2 point ≠ 0) :
    point ≠ s1 ∧ point ≠ s2 := by
  constructor
  · rintro rfl
    apply h
    simp [side, side_value]
  · rintro rfl
    apply h
    have : side_value s1 point point = 0 := by unfold side_value; ring
    simp [side, this]

/-- When the point is strictly right of the evaluated helper edges, the helper
stage is decided by the offset envelope and the closing edge. -/
theorem check_helper_points_of_right (point : Point) (piece : Piece)
    {p0 p1 p2 p3 : Point}
    (h01 : side p0 p1 point = -1) (h23 : side p2 p3 point = -1)
    (h12 : p1 ≠ p2 → side p1 p2 point = -1) :
    check_helper_points point piece p0 p1 p2 p3
      = if covered_by point piece.robust_offsetted_envelope = false then
          (if side p3 p0 point = -1 then analyse_within else analyse_disjoint)
        else analyse_continue := by
  have n01 := ne_of_side_ne_zero (show side p0 p1 point ≠ 0 by omega)
  have n23 := ne_of_side_ne_zero (show side p2 p3 point ≠ 0 by omega)
  have hmid : (if p1 ≠ p2 then check_helper_segment p1 p2 point true point
      else analyse_continue) = analyse_continue := by
    by_cases h : p1 = p2
    · simp [h]
    · simp [h, check_helper_segment_of_right (h12 h)]
  unfold check_helper_points
  rw [if_neg (by simp [n01.1, n23.2]), if_neg (by simp [n01.2, n23.1])]
  simp only [check_helper_segment_of_right h01, check_helper_segment_of_right h23,
    hmid, ne_eq, not_true_eq_false, if_false]
  by_cases hc : covered_by point piece.robust_offsetted_envelope = false
  · simp only [hc, if_true]
    have hs : side p3 p0 point = 0 ∨ side p3 p0 point = 1 ∨ side p3 p0 point = -1 := by
      unfold side; simp only; split_ifs <;> simp
    rcases hs with hs | hs | hs <;> simp [hs]
  · simp [hc]

/-- One offset segment answers on the curve, near the curve, or goes on. -/
theorem check_segment_cases (previous current point : Point) :
    check_segment previous current point = analyse_on_offsetted
      ∨ check_segment previous current point = analyse_near_offsetted
      ∨ check_segment previous current point = analyse_continue := by
  unfold check_segment
  simp only
  split_ifs <;> simp

/-- Whatever the scan returns is a scan result. -/
theorem ring_scan_result (point : Point) (ring : List Point) :
    ∀ (n i : Nat) (r : analyse_result),
      ring_scan point ring i n = some r → is_scan_result r := by
  intro n
  induction n with
  | zero =>
    intro i r h
    simp only [ring_scan, Option.some.injEq] at h
    exact Or.inr (Or.inr h.symm)
  | succ n ih =>
    intro i r h
    unfold ring_scan at h
    split at h
    · rename_i previous current _ _
      simp only at h
      split_ifs at h with hne hc
      · rcases check_segment_cases previous current point with h1 | h1 | h1
        · left; rw [← h1]; exact (Option.some.inj h).symm
        · right; left; rw [← h1]; exact (Option.some.inj h).symm
        · exact absurd h1 hc
      · exact ih _ _ h
      · exact ih _ _ h
    · exact absurd h (by simp)

/-- The scan returns when every index it reads is in the ring. -/
theorem ring_scan_total (point : Point) (ring : List Point) :
    ∀ (n i : Nat), 1 ≤ i → i + n ≤ ring.length →
      ∃ r, ring_scan point ring i n = some r := by
  intro n
  induction n with
  | zero => intro i _ _; exact ⟨_, rfl⟩
  | succ n ih =>
    intro i hi hlen
    have h1 : i - 1 < ring.length := by omega
    have h2 : i < ring.length := by omega
    unfold ring_scan
    rw [List.getElem?_eq_getElem h1, List.getElem?_eq_getElem h2]
    simp only
    split_ifs
    · exact ⟨_, rfl⟩
    · exact ih (i + 1) (by omega) (by omega)
    · exact ih (i + 1) (by omega) (by omega)

/-- The scan of `apply` returns for a piece whose offset count is within the
ring. -/
theorem ring_scan_apply_total (point : Point) (piece : Piece)
    (h : piece.offsetted_count ≤ piece.robust_ring.length) :
    ∃ r, ring_scan point piece.robust_ring 1 (piece.offsetted_count - 1) = some r
      ∧ is_scan_result r := by
  have : ∃ r, ring_scan point piece.robust_ring 1 (piece.offsetted_count - 1) = some r := by
    by_cases h0 : piece.offsetted_count - 1 = 0
    · rw [h0]; exact ⟨_, rfl⟩
    · exact ring_scan_total point piece.robust_ring _ 1 (le_refl 1) (by omega)
  obtain ⟨r, hr⟩ := this
  exact ⟨r, hr, ring_scan_result _ _ _ _ _ hr⟩

/-- The helper stage never reads outside the ring. -/
theorem check_helper_segments_total (point : Point) (piece : Piece) :
    ∃ r, check_helper_segments point piece = some r := by
  by_cases h : helper_count piece = 3 ∨ helper_count piece = 4
  · obtain ⟨H0, H1, H2, H3, hq⟩ := (helper_count_iff piece).mp h
    exact ⟨_, check_helper_segments_of_corners hq point⟩
  · have h4 : ¬ helper_count piece = 4 := fun h4 => h (Or.inr h4)
    have h3 : ¬ helper_count piece = 3 := fun h3 => h (Or.inl h3)
    exact ⟨analyse_continue, by simp [check_helper_segments, h3, h4]⟩

/-- A piece with helper corners has its offset count within the ring. -/
theorem offsetted_count_le_of_corners {piece : Piece} {H0 H1 H2 H3 : Point}
    (h : has_helper_corners piece H0 H1 H2 H3) :
    piece.offsetted_count ≤ piece.robust_ring.length := by
  have h1 := (helper_count_iff piece).mpr ⟨H0, H1, H2, H3, h⟩
  unfold helper_count at h1
  omega

/-- The classifier in terms of the helper corners. -/
theorem apply_of_corners {piece : Piece} {H0 H1 H2 H3 : Point}
    (h : has_helper_corners piece H0 H1 H2 H3) (point : Point) :
    analyse_turn_wrt_piece.apply point piece
      = if check_helper_points point piece H0 H1 H2 H3 ≠ analyse_continue then
          some (check_helper_points point piece H0 H1 H2 H3)
        else ring_scan point piece.robust_ring 1 (piece.offsetted_count - 1) := by
  simp only [analyse_turn_wrt_piece.apply, check_helper_segments_of_corners h]

/-- Claim C1, counterexample. The point `(8,5)` is strictly inside the helper
rectangle of `side_piece` and covered by the envelope of its offset segment:
the classifier returns `unknown`. -/
theorem interior_point_within_counterexample :
    has_helper_corners side_piece ⟨10, 10⟩ ⟨14, 6⟩ ⟨4, -4⟩ ⟨0, 0⟩
      ∧ side ⟨10, 10⟩ ⟨14, 6⟩ ⟨8, 5⟩ = -1
      ∧ side ⟨14, 6⟩ ⟨4, -4⟩ ⟨8, 5⟩ = -1
      ∧ side ⟨4, -4⟩ ⟨0, 0⟩ ⟨8, 5⟩ = -1
      ∧ side ⟨0, 0⟩ ⟨10, 10⟩ ⟨8, 5⟩ = -1
      ∧ analyse_turn_wrt_piece.apply ⟨8, 5⟩ side_piece = some analyse_unknown := by
  decide

/-- Claim C1 (amended). For a piece with 3 or 4 helper points and a point `P`
strictly right of each of the directed edges `H0->H1`, `H1->H2` (when
`H1 ≠ H2`), `H2->H3` and `H3->H0` (such a point equals no helper corner) and
not covered by the envelope of the offset curve, the classifier returns
`within`. -/
theorem interior_point_outside_offsetted_envelope_within
    (P : Point) (piece : Piece) (H0 H1 H2 H3 : Point)
    (hq : has_helper_corners piece H0 H1 H2 H3)
    (h01 : side H0 H1 P = -1) (h12 : H1 ≠ H2 → side H1 H2 P = -1)
    (h23 : side H2 H3 P = -1) (h30 : side H3 H0 P = -1)
    (henv : covered_by P piece.robust_offsetted_envelope = false) :
    analyse_turn_wrt_piece.apply P piece = some analyse_within := by
  rw [apply_of_corners hq, check_helper_points_of_right P piece h01 h23 h12]
  simp [henv, h30]

/-- Claim C1, witness: the point `(12,6)` of `side_piece`. -/
theorem interior_point_outside_offsetted_envelope_within_witness :
    covered_by ⟨12, 6⟩ side_piece.robust_offsetted_envelope = false
      ∧ analyse_turn_wrt_piece.apply ⟨12, 6⟩ side_piece = some analyse_within :=
  ⟨by decide,
    interior_point_outside_offsetted_envelope_within ⟨12, 6⟩ side_piece
      ⟨10, 10⟩ ⟨14, 6⟩ ⟨4, -4⟩ ⟨0, 0⟩ (by decide) (by decide) (by decide)
      (by decide) (by decide) (by decide)⟩

/-- Claim C5. For a piece with 3 or 4 helper points and a point equal to the
first or the last helper corner, the classifier returns `on_offsetted`,
whatever the rest of the ring and the envelopes are. -/
theorem outer_helper_corner_on_offsetted
    (P : Point) (piece : Piece) (H0 H1 H2 H3 : Point)
    (hq : has_helper_corners piece H0 H1 H2 H3)
    (hP : P = H0 ∨ P = H3) :
    analyse_turn_wrt_piece.apply P piece = some analyse_on_offsetted := by
  rw [apply_of_corners hq]
  simp [check_helper_points, hP]

/-- Claim C5, witness: the last helper corner of `side_piece`. -/
theorem outer_helper_corner_on_offsetted_witness :
    analyse_turn_wrt_piece.apply ⟨0, 0⟩ side_piece = some analyse_on_offsetted :=
  outer_helper_corner_on_offsetted ⟨0, 0⟩ side_piece
    ⟨10, 10⟩ ⟨14, 6⟩ ⟨4, -4⟩ ⟨0, 0⟩ (by decide) (by decide)

/-- Claim C6, counterexample. The inner corner `H1 = (10,0)` of
`coincident_corner_piece` is also its outer corner `H0`: the classifier
returns `on_offsetted`. -/
theorem inner_helper_corner_counterexample :
    has_helper_corners coincident_corner_piece ⟨10, 0⟩ ⟨10, 0⟩ ⟨0, -5⟩ ⟨0, 0⟩
      ∧ ((⟨10, 0⟩ : Point) = ⟨10, 0⟩ ∨ (⟨10, 0⟩ : Point) = ⟨0, -5⟩)
      ∧ analyse_turn_wrt_piece.apply ⟨10, 0⟩ coincident_corner_piece
        = some analyse_on_offsetted := by
  decide

/-- Claim C6 (amended). For a piece with 3 or 4 helper points and a point equal
to an inner helper corner `H1` or `H2` and different from the outer corners
`H0` and `H3`, the classifier returns `on_original_boundary`. -/
theorem inner_helper_corner_on_original_boundary
    (P : Point) (piece : Piece) (H0 H1 H2 H3 : Point)
    (hq : has_helper_corners piece H0 H1 H2 H3)
    (hP : P = H1 ∨ P = H2) (hout : P ≠ H0 ∧ P ≠ H3) :
    analyse_turn_wrt_piece.apply P piece
      = some analyse_on_original_boundary := by
  rw [apply_of_corners hq]
  simp [check_helper_points, hP, hout.1, hout.2]

/-- Claim C6, witness: the corner `H1` of `side_piece`. -/
theorem inner_helper_corner_on_original_boundary_witness :
    analyse_turn_wrt_piece.apply ⟨14, 6⟩ side_piece
      = some analyse_on_original_boundary :=
  inner_helper_corner_on_original_boundary ⟨14, 6⟩ side_piece
    ⟨10, 10⟩ ⟨14, 6⟩ ⟨4, -4⟩ ⟨0, 0⟩ (by decide) (by decide) (by decide)

/-- Whatever the classifier returns is not the internal value `continue`. -/
theorem apply_ne_continue (point : Point) (piece : Piece) :
    ∀ r, analyse_turn_wrt_piece.apply point piece = some r →
      r ≠ analyse_continue := by
  obtain ⟨c, hc⟩ := check_helper_segments_total point piece
  intro r hr
  simp only [analyse_turn_wrt_piece.apply, hc] at hr
  split_ifs at hr with h
  · rw [← Option.some.inj hr]; exact h
  · rcases ring_scan_result _ _ _ _ _ hr with h1 | h1 | h1 <;> simp [h1]

/-- The classifier returns for a piece whose offset count is within the
ring. -/
theorem apply_total (point : Point) (piece : Piece)
    (hwf : piece.offsetted_count ≤ piece.robust_ring.length) :
    ∃ r, analyse_turn_wrt_piece.apply point piece = some r := by
  obtain ⟨c, hc⟩ := check_helper_segments_total point piece
  simp only [analyse_turn_wrt_piece.apply, hc]
  split_ifs
  · exact ⟨_, rfl⟩
  · obtain ⟨r, hr, _⟩ := ring_scan_apply_total point piece hwf
    exact ⟨r, hr⟩

/-- Claim C7. The classifier never returns the internal value `continue`, and
for a piece whose offset count is within its ring it returns one of `unknown`,
`disjoint`, `within`, `on_original_boundary`, `on_offsetted`,
`near_offsetted`. -/
theorem apply_never_continue (point : Point) (piece : Piece) :
    analyse_turn_wrt_piece.apply point piece ≠ some analyse_continue
      ∧ (piece.offsetted_count ≤ piece.robust_ring.length →
          ∃ r, analyse_turn_wrt_piece.apply point piece = some r
            ∧ (r = analyse_unknown ∨ r = analyse_disjoint ∨ r = analyse_within
              ∨ r = analyse_on_original_boundary ∨ r = analyse_on_offsetted
              ∨ r = analyse_near_offsetted)) := by
  refine ⟨fun h => apply_ne_continue point piece _ h rfl, fun hwf => ?_⟩
  obtain ⟨r, hr⟩ := apply_total point piece hwf
  refine ⟨r, hr, ?_⟩
  have := apply_ne_continue point piece r hr
  cases r <;> simp at this ⊢

/-- Claim C7, witness. -/
theorem apply_never_continue_witness :
    ∃ r, analyse_turn_wrt_piece.apply ⟨8, 5⟩ side_piece = some r
      ∧ (r = analyse_unknown ∨ r = analyse_disjoint ∨ r = analyse_within
        ∨ r = analyse_on_original_boundary ∨ r = analyse_on_offsetted
        ∨ r = analyse_near_offsetted) :=
  (apply_never_continue ⟨8, 5⟩ side_piece).2 (by decide)

/-- Claim C8. For a piece with 3 or 4 helper points and a point covered by the
envelope of the offset curve and strictly right of every evaluated helper edge,
the classifier result is the result of the scan of the offset curve: one of
`on_offsetted`, `near_offsetted`, `unknown`, and never `within`, whatever side
of `H3->H0` the point lies on. -/
theorem covered_point_decided_by_ring_scan
    (P : Point) (piece : Piece) (H0 H1 H2 H3 : Point)
    (hq : has_helper_corners piece H0 H1 H2 H3)
    (henv : covered_by P piece.robust_offsetted_envelope = true)
    (h01 : side H0 H1 P = -1) (h23 : side H2 H3 P = -1)
    (h12 : H1 ≠ H2 → side H1 H2 P = -1) :
    analyse_turn_wrt_piece.apply P piece
        = ring_scan P piece.robust_ring 1 (piece.offsetted_count - 1)
      ∧ ∃ r, analyse_turn_wrt_piece.apply P piece = some r
          ∧ (r = analyse_on_offsetted ∨ r = analyse_near_offsetted
            ∨ r = analyse_unknown)
          ∧ r ≠ analyse_within := by
  have heq : analyse_turn_wrt_piece.apply P piece
      = ring_scan P piece.robust_ring 1 (piece.offsetted_count - 1) := by
    rw [apply_of_corners hq, check_helper_points_of_right P piece h01 h23 h12]
    simp [henv]
  obtain ⟨r, hr, hres⟩ :=
    ring_scan_apply_total P piece (offsetted_count_le_of_corners hq)
  refine ⟨heq, r, heq.trans hr, hres, ?_⟩
  rcases hres with h | h | h <;> simp [h]

/-- Claim C8, witness: the point `(8,5)` of `side_piece`. -/
theorem covered_point_decided_by_ring_scan_witness :
    covered_by ⟨8, 5⟩ side_piece.robust_offsetted_envelope = true
      ∧ analyse_turn_wrt_piece.apply ⟨8, 5⟩ side_piece
        = ring_scan ⟨8, 5⟩ side_piece.robust_ring 1 (side_piece.offsetted_count - 1) :=
  ⟨by decide,
    (covered_point_decided_by_ring_scan ⟨8, 5⟩ side_piece
      ⟨10, 10⟩ ⟨14, 6⟩ ⟨4, -4⟩ ⟨0, 0⟩ (by decide) (by decide) (by decide)
      (by decide) (by decide)).1⟩

/-- Claim C4, counterexample. The midpoint `(5,0)` of `B0 B1` in the ring
`[O0, O1, B0, B1]` of `two_helper_piece` is classified `unknown`. -/
theorem midpoint_on_original_boundary_counterexample :
    two_helper_piece.robust_ring = [⟨0, 10⟩, ⟨10, 10⟩, ⟨10, 0⟩, ⟨0, 0⟩]
      ∧ two_helper_piece.offsetted_count = 2
      ∧ analyse_turn_wrt_piece.apply ⟨5, 0⟩ two_helper_piece = some analyse_unknown := by
  decide

/-- Claim C4 (amended). For a piece with `offsetted_count = 2` and a four-point
ring `[O0, O1, B0, B1]` the helper count is 2, the helper stage is skipped, and
the classifier at every point `M`, in particular at the midpoint of `(B0, B1)`,
returns the result of the scan of the single offset segment `(O0, O1)`:
`on_offsetted`, `near_offsetted` or `unknown`, and never
`on_original_boundary`. -/
theorem two_helper_points_decided_by_ring_scan
    (piece : Piece) (O0 O1 B0 B1 M : Point)
    (hring : piece.robust_ring = [O0, O1, B0, B1])
    (hoc : piece.offsetted_count = 2) :
    analyse_turn_wrt_piece.apply M piece
        = some (if O0 = O1 then analyse_unknown
            else if check_segment O0 O1 M = analyse_continue then analyse_unknown
            else check_segment O0 O1 M)
      ∧ analyse_turn_wrt_piece.apply M piece
        ≠ some analyse_on_original_boundary := by
  have heq : analyse_turn_wrt_piece.apply M piece
        = some (if O0 = O1 then analyse_unknown
            else if check_segment O0 O1 M = analyse_continue then analyse_unknown
            else check_segment O0 O1 M) := by
    simp only [analyse_turn_wrt_piece.apply, check_helper_segments, helper_count, hring, hoc]
    by_cases h : O0 = O1
    · simp [ring_scan, h]
    · by_cases hc : check_segment O0 O1 M = analyse_continue
      · simp [ring_scan, h, hc]
      · simp [ring_scan, h, hc]
  refine ⟨heq, ?_⟩
  rw [heq]
  rcases check_segment_cases O0 O1 M with h | h | h <;> split_ifs <;> simp_all

/-- Claim C4, witness. -/
theorem two_helper_points_decided_by_ring_scan_witness :
    analyse_turn_wrt_piece.apply ⟨5, 0⟩ two_helper_piece
      ≠ some analyse_on_original_boundary :=
  (two_helper_points_decided_by_ring_scan two_helper_piece
    ⟨0, 10⟩ ⟨10, 10⟩ ⟨10, 0⟩ ⟨0, 0⟩ ⟨5, 0⟩ (by decide) (by decide)).2

/-! ## The orchestrator: rejection rules and dispatch -/

open turn_in_piece_visitor

/-- One iteration of the neighbour loop that does not reject. -/
theorem neighbour_step_proceed {m_pieces : List Piece} {op : turn_operation}
    {piece g : Piece} (nb : Bool)
    (hg : index_get m_pieces op.piece_index = some g)
    (hself : op.piece_index ≠ piece.index)
    (hfc : is_neighbour_of g piece → ¬ is_flat_or_concave g.type) :
    neighbour_step m_pieces op piece nb
      = some (neighbour_result.proceed (decide (is_neighbour_of g piece) || nb)) := by
  unfold neighbour_step
  rw [if_neg hself, hg]
  simp only
  by_cases h : is_neighbour_of g piece
  · have h1 := hfc h
    unfold is_flat_or_concave at h1
    unfold is_neighbour_of at h
    push_neg at h1
    rw [if_pos h, if_neg h1.1, if_neg h1.2]
    simp [is_neighbour_of, h]
  · have h2 : ¬ (g.left_index = piece.index ∨ g.right_index = piece.index) := h
    rw [if_neg h2]
    simp [h]

/-- The neighbour loop when no rejection rule fires. -/
theorem neighbour_loop_of_passes {m_pieces : List Piece} {turn : Turn}
    {piece g0 g1 : Piece}
    (h : passes_rejection_rules m_pieces turn piece g0 g1) :
    neighbour_loop m_pieces turn piece
      = some (neighbour_result.proceed
          (decide (is_neighbour_of g0 piece ∨ is_neighbour_of g1 piece))) := by
  obtain ⟨_, _, _, hg0, hg1, hs0, hs1, hf0, hf1⟩ := h
  unfold neighbour_loop
  rw [neighbour_step_proceed false hg0 hs0 hf0]
  simp only
  rw [neighbour_step_proceed _ hg1 hs1 hf1]
  by_cases a : is_neighbour_of g0 piece <;> by_cases b : is_neighbour_of g1 piece <;>
    simp [a, b]

/-- The orchestrator when no rejection rule fires: the classifier result is
dispatched on the turn stored at `turn_index`. -/
theorem apply_of_passes (point_in_geometry : Point → List Point → Int)
    {m_pieces : List Piece} {m_turns : List Turn} {turn : Turn}
    {piece g0 g1 : Piece} {mutable_turn : Turn} {code : analyse_result}
    (h : passes_rejection_rules m_pieces turn piece g0 g1)
    (hcode : analyse_turn_wrt_piece.apply turn.robust_point piece = some code)
    (hmt : index_get m_turns turn.turn_index = some mutable_turn) :
    turn_in_piece_visitor.apply point_in_geometry m_pieces m_turns turn piece
      = some (dispatch point_in_geometry m_turns turn piece mutable_turn
          (decide (is_neighbour_of g0 piece ∨ is_neighbour_of g1 piece)) code) := by
  have hl := neighbour_loop_of_passes h
  obtain ⟨hcw, hty, henv, _⟩ := h
  have hty2 : ¬ (piece.type = piece_type.buffered_flat_end
      ∨ piece.type = piece_type.buffered_concave) := hty
  unfold turn_in_piece_visitor.apply
  rw [if_neg (by omega), if_neg hty2, if_neg (by simp [henv]), hl]
  simp only [hcode, hmt]

/-- Claim C3, counterexample. The classifier answers `near_offsetted`, the
oracle on-boundary, the piece is no neighbour: no counter changes. -/
theorem exact_fallback_counterexample :
    passes_rejection_rules example_pieces turn_near_corner cap_piece
        first_piece second_piece
      ∧ analyse_turn_wrt_piece.apply turn_near_corner.robust_point cap_piece
        = some analyse_near_offsetted
      ∧ on_boundary_oracle turn_near_corner.robust_point cap_piece.robust_ring = 0
      ∧ ¬ (is_neighbour_of first_piece cap_piece
        ∨ is_neighbour_of second_piece cap_piece)
      ∧ turn_in_piece_visitor.apply on_boundary_oracle example_pieces
          example_turns turn_near_corner cap_piece
        = some example_turns := by
  decide

/-- Claim C3 (amended). For a call in which no rejection rule fires, the
classifier returns `unknown` or `near_offsetted`, the oracle does not say
outside, and it is not the case that the oracle says on-boundary and the piece
is a neighbour: if the classifier result was `near_offsetted`, then
`count_within_near_offsetted` is incremented by one when the oracle says
strictly inside and nothing is changed otherwise; if the classifier result was
`unknown`, `count_within` is incremented by one. -/
theorem exact_fallback_outcome (point_in_geometry : Point → List Point → Int)
    (m_pieces : List Piece) (m_turns : List Turn) (turn : Turn)
    (piece g0 g1 : Piece) (mutable_turn : Turn) (code : analyse_result)
    (hpass : passes_rejection_rules m_pieces turn piece g0 g1)
    (hcode : analyse_turn_wrt_piece.apply turn.robust_point piece = some code)
    (hinc : code = analyse_unknown ∨ code = analyse_near_offsetted)
    (hmt : index_get m_turns turn.turn_index = some mutable_turn)
    (hout : point_in_geometry turn.robust_point piece.robust_ring ≠ -1)
    (hnb : ¬ (point_in_geometry turn.robust_point piece.robust_ring = 0
      ∧ (is_neighbour_of g0 piece ∨ is_neighbour_of g1 piece))) :
    turn_in_piece_visitor.apply point_in_geometry m_pieces m_turns turn piece
      = some (
          if code = analyse_near_offsetted then
            if point_in_geometry turn.robust_point piece.robust_ring = 1 then
              index_set m_turns turn.turn_index
                (inc_within_near_offsetted mutable_turn)
            else m_turns
          else index_set m_turns turn.turn_index (inc_within mutable_turn)) := by
  rw [apply_of_passes point_in_geometry hpass hcode hmt]
  have hnb2 : ¬ (point_in_geometry turn.robust_point piece.robust_ring = 0
      ∧ decide (is_neighbour_of g0 piece ∨ is_neighbour_of g1 piece) = true) := by
    simpa using hnb
  rcases hinc with h | h <;> subst h <;>
    simp only [dispatch, exact_fallback, if_neg hout, if_neg hnb2] <;> simp

/-- Claim C3, witness. -/
theorem exact_fallback_outcome_witness :
    turn_in_piece_visitor.apply on_boundary_oracle example_pieces
        example_turns turn_near_corner cap_piece = some example_turns :=
  exact_fallback_outcome on_boundary_oracle example_pieces example_turns
    turn_near_corner cap_piece first_piece second_piece turn_near_corner
    analyse_near_offsetted (by decide) (by decide) (by decide) (by decide)
    (by decide) (by decide)

/-- A point on a side helper edge, away from the corners and farther than the
tolerance from the offset-side corner, is classified `within`. -/
theorem check_helper_segment_on_side_edge {s1 s2 point offsetted : Point}
    (h : on_segment s1 s2 point)
    (hfar : 1 < comparable_distance point offsetted) :
    check_helper_segment s1 s2 point false offsetted = analyse_within := by
  obtain ⟨hs, hc⟩ := h
  unfold check_helper_segment
  simp only [hs, hc]
  simp only [if_true, true_and]
  rw [if_neg (by omega)]
  simp [hfar]

/-- The helper stage for a point on one of the two side helper edges. -/
theorem check_helper_points_on_side_edge (point : Point) (piece : Piece)
    {p0 p1 p2 p3 : Point}
    (hne : point ≠ p0 ∧ point ≠ p1 ∧ point ≠ p2 ∧ point ≠ p3)
    (h : (on_segment p0 p1 point ∧ 1 < comparable_distance point p0)
      ∨ (side p0 p1 point = -1 ∧ on_segment p2 p3 point
        ∧ 1 < comparable_distance point p3)) :
    check_helper_points point piece p0 p1 p2 p3 = analyse_within := by
  obtain ⟨n0, n1, n2, n3⟩ := hne
  unfold check_helper_points
  rw [if_neg (by simp [n0, n3]), if_neg (by simp [n1, n2])]
  rcases h with ⟨h1, h2⟩ | ⟨h1, h2, h3⟩
  · simp [check_helper_segment_on_side_edge h1 h2]
  · simp [check_helper_segment_of_right h1, check_helper_segment_on_side_edge h2 h3]

/-- Claim C2, counterexample. The turn of pieces 0 and 2 has `count_within = 0`
and lies at `(10,2)` on the edge `(10,5) -- (10,0)` that its generating piece 0
(edge `H0->H1`) shares with its right neighbour, piece 1 (edge `H2->H3`); it is
covered by the envelopes of both generating pieces. Tested against piece 1,
the call increments `count_within`. -/
theorem neighbour_suppression_counterexample :
    turn_on_shared_edge.count_within = 0
      ∧ index_get chain_pieces turn_on_shared_edge.operations_0.piece_index
        = some chain_first_piece
      ∧ index_get chain_pieces turn_on_shared_edge.operations_1.piece_index
        = some lower_crossing_piece
      ∧ chain_first_piece.right_index = chain_second_piece.index
      ∧ has_helper_corners chain_first_piece ⟨10, 5⟩ ⟨10, 0⟩ ⟨0, 0⟩ ⟨0, 5⟩
      ∧ has_helper_corners chain_second_piece ⟨20, 5⟩ ⟨20, 0⟩ ⟨10, 0⟩ ⟨10, 5⟩
      ∧ on_segment ⟨10, 5⟩ ⟨10, 0⟩ turn_on_shared_edge.robust_point
      ∧ on_segment ⟨10, 0⟩ ⟨10, 5⟩ turn_on_shared_edge.robust_point
      ∧ covered_by turn_on_shared_edge.robust_point
          chain_first_piece.robust_envelope = true
      ∧ covered_by turn_on_shared_edge.robust_point
          lower_crossing_piece.robust_envelope = true
      ∧ turn_in_piece_visitor.apply on_boundary_oracle chain_pieces
          chain_turns turn_on_shared_edge chain_second_piece
        = some [inc_within turn_on_shared_edge, turn_near_shared_corner]
      ∧ (inc_within turn_on_shared_edge).count_within = 1 := by
  decide

/-- Claim C2 (amended). For a call in which no rejection rule fires: when the
piece is the left or right neighbour of a generating piece, the classifier is
inconclusive (`unknown` or `near_offsetted`) and the oracle says on-boundary,
no counter changes; but a point on the helper edge `H0->H1`, or strictly right
of it and on the helper edge `H2->H3`, that is no helper corner and farther
than squared distance 1 from the outer corner of that edge, is classified
`within` by the helper stage and `count_within` is incremented by one, whether
the piece is a neighbour or not. -/
theorem neighbour_suppression_only_in_exact_fallback
    (point_in_geometry : Point → List Point → Int)
    (m_pieces : List Piece) (m_turns : List Turn) (turn : Turn)
    (piece g0 g1 : Piece) (mutable_turn : Turn)
    (hpass : passes_rejection_rules m_pieces turn piece g0 g1)
    (hmt : index_get m_turns turn.turn_index = some mutable_turn) :
    (is_neighbour_of g0 piece ∨ is_neighbour_of g1 piece →
        ∀ code, analyse_turn_wrt_piece.apply turn.robust_point piece = some code →
        code = analyse_unknown ∨ code = analyse_near_offsetted →
        point_in_geometry turn.robust_point piece.robust_ring = 0 →
        turn_in_piece_visitor.apply point_in_geometry m_pieces m_turns turn piece
          = some m_turns)
      ∧ (∀ H0 H1 H2 H3, has_helper_corners piece H0 H1 H2 H3 →
        (turn.robust_point ≠ H0 ∧ turn.robust_point ≠ H1
          ∧ turn.robust_point ≠ H2 ∧ turn.robust_point ≠ H3) →
        ((on_segment H0 H1 turn.robust_point
            ∧ 1 < comparable_distance turn.robust_point H0)
          ∨ (side H0 H1 turn.robust_point = -1
            ∧ on_segment H2 H3 turn.robust_point
            ∧ 1 < comparable_distance turn.robust_point H3)) →
        turn_in_piece_visitor.apply point_in_geometry m_pieces m_turns turn piece
          = some (index_set m_turns turn.turn_index (inc_within mutable_turn))) := by
  constructor
  · intro hnb code hcode hinc hg
    rw [apply_of_passes point_in_geometry hpass hcode hmt]
    rcases hinc with h | h <;> subst h <;>
      simp [dispatch, exact_fallback, hg, hnb]
  · intro H0 H1 H2 H3 hq hne hedge
    have hcode : analyse_turn_wrt_piece.apply turn.robust_point piece
        = some analyse_within := by
      rw [apply_of_corners hq, check_helper_points_on_side_edge _ piece hne hedge]
      simp
    rw [apply_of_passes point_in_geometry hpass hcode hmt]
    simp [dispatch]

/-- Claim C2, witness: on the edge shared by pieces 0 and 1, the turn one unit
from the offset-side corner is `near_offsetted`, the oracle says on-boundary
and the call for the neighbour changes nothing; the turn in the middle of the
edge is counted as within. -/
theorem neighbour_suppression_only_in_exact_fallback_witness :
    analyse_turn_wrt_piece.apply turn_near_shared_corner.robust_point
        chain_second_piece = some analyse_near_offsetted
      ∧ turn_in_piece_visitor.apply on_boundary_oracle chain_pieces
          chain_turns turn_near_shared_corner chain_second_piece
        = some chain_turns
      ∧ turn_in_piece_visitor.apply on_boundary_oracle chain_pieces
          chain_turns turn_on_shared_edge chain_second_piece
        = some (index_set chain_turns turn_on_shared_edge.turn_index
            (inc_within turn_on_shared_edge)) :=
  ⟨by decide,
    (neighbour_suppression_only_in_exact_fallback on_boundary_oracle
      chain_pieces chain_turns turn_near_shared_corner chain_second_piece
      chain_first_piece upper_crossing_piece turn_near_shared_corner
      (by decide) (by decide)).1 (by decide)
      analyse_near_offsetted (by decide) (by decide) (by decide),
    (neighbour_suppression_only_in_exact_fallback on_boundary_oracle
      chain_pieces chain_turns turn_on_shared_edge chain_second_piece
      chain_first_piece lower_crossing_piece turn_on_shared_edge
      (by decide) (by decide)).2
      ⟨20, 5⟩ ⟨20, 0⟩ ⟨10, 0⟩ ⟨10, 5⟩ (by decide) (by decide) (by decide)⟩

/-- Claim C9. For every turn collection, turn and piece (the two generating
pieces of the turn being stored in the piece collection): if the piece is
flat-end or concave, or the point of the turn is not covered by the envelope
of the piece, or the index of the piece is the piece index of one of the two
operations of the turn, or the piece is the left or right neighbour of a
generating piece that is flat-end or concave, then the orchestrator returns
the turn collection unchanged. -/
theorem rejection_rules_leave_turns_unchanged
    (point_in_geometry : Point → List Point → Int)
    (m_pieces : List Piece) (m_turns : List Turn) (turn : Turn)
    (piece g0 g1 : Piece)
    (hg0 : index_get m_pieces turn.operations_0.piece_index = some g0)
    (hg1 : index_get m_pieces turn.operations_1.piece_index = some g1)
    (hrej : is_flat_or_concave piece.type
      ∨ covered_by turn.robust_point piece.robust_envelope = false
      ∨ piece.index = turn.operations_0.piece_index
      ∨ piece.index = turn.operations_1.piece_index
      ∨ (is_neighbour_of g0 piece ∧ is_flat_or_concave g0.type)
      ∨ (is_neighbour_of g1 piece ∧ is_flat_or_concave g1.type)) :
    turn_in_piece_visitor.apply point_in_geometry m_pieces m_turns turn piece
      = some m_turns := by
  unfold turn_in_piece_visitor.apply
  split_ifs with h1 h2 h3
  · rfl
  · rfl
  · rfl
  · have hstep : ∀ (op : turn_operation) (g : Piece) (nb : Bool),
        index_get m_pieces op.piece_index = some g →
        (neighbour_step m_pieces op piece nb = some neighbour_result.rejected
          ↔ (piece.index = op.piece_index
            ∨ (is_neighbour_of g piece ∧ is_flat_or_concave g.type)))
        ∧ (neighbour_step m_pieces op piece nb = some neighbour_result.rejected
          ∨ ∃ b, neighbour_step m_pieces op piece nb
            = some (neighbour_result.proceed b)) := by
      intro op g nb hg
      unfold neighbour_step
      by_cases hs : op.piece_index = piece.index
      · simp [hs]
      · have hs2 : ¬ piece.index = op.piece_index := fun h => hs h.symm
        rw [if_neg hs, hg]
        simp only [is_neighbour_of, is_flat_or_concave]
        by_cases hn : g.left_index = piece.index ∨ g.right_index = piece.index
        · rw [if_pos hn]
          by_cases hf : g.type = piece_type.buffered_flat_end
          · simp [hf, hn]
          · by_cases hcv : g.type = piece_type.buffered_concave
            · simp [hcv, hn]
            · simp [hf, hcv, hs2]
        · rw [if_neg hn]
          simp [hn, hs2]
    have hrej2 : (piece.index = turn.operations_0.piece_index
          ∨ (is_neighbour_of g0 piece ∧ is_flat_or_concave g0.type))
        ∨ (piece.index = turn.operations_1.piece_index
          ∨ (is_neighbour_of g1 piece ∧ is_flat_or_concave g1.type)) := by
      rcases hrej with h | h | h | h | h | h
      · exact absurd h h2
      · exact absurd h h3
      · exact Or.inl (Or.inl h)
      · exact Or.inr (Or.inl h)
      · exact Or.inl (Or.inr h)
      · exact Or.inr (Or.inr h)
    have hloop : neighbour_loop m_pieces turn piece
        = some neighbour_result.rejected := by
      unfold neighbour_loop
      obtain ⟨i0, c0⟩ := hstep turn.operations_0 g0 false hg0
      rcases c0 with c0 | ⟨b, c0⟩
      · rw [c0]
      · rw [c0]
        simp only
        obtain ⟨i1, _⟩ := hstep turn.operations_1 g1 b hg1
        rcases hrej2 with h | h
        · have := i0.mpr h
          rw [c0] at this
          simp at this
        · exact i1.mpr h
    rw [hloop]

/-- Claim C9, witness: a turn tested against its own generating piece. -/
theorem rejection_rules_leave_turns_unchanged_witness :
    first_piece.index = turn_on_helper_edge.operations_0.piece_index
      ∧ turn_in_piece_visitor.apply on_boundary_oracle example_pieces
          example_turns turn_on_helper_edge first_piece
        = some example_turns :=
  ⟨by decide,
    rejection_rules_leave_turns_unchanged on_boundary_oracle example_pieces
      example_turns turn_on_helper_edge first_piece first_piece second_piece
      (by decide) (by decide) (by decide)⟩

/-! ## The orchestrator: sweeps -/

/-- Reading back the element just written. -/
theorem index_get_index_set_self {α : Type} {xs : List α} {i : Int} {w : α}
    (h : index_get xs i = some w) (v : α) :
    index_get (index_set xs i v) i = some v := by
  unfold index_get at h ⊢
  unfold index_set
  split_ifs at h ⊢ with h0
  have hlt : i.toNat < xs.length := by
    rcases List.getElem?_eq_some.mp h with ⟨hl, _⟩
    exact hl
  exact List.getElem?_set_self hlt

/-- The dispatch leaves the collection as it is or stores the turn read at
`turn_index` with one counter incremented. -/
theorem dispatch_cases (point_in_geometry : Point → List Point → Int)
    (m_turns : List Turn) (turn : Turn) (piece : Piece) (mutable_turn : Turn)
    (neighbour : Bool) (code : analyse_result) :
    dispatch point_in_geometry m_turns turn piece mutable_turn neighbour code
        = m_turns
      ∨ ∃ f, (f = inc_on_offsetted ∨ f = inc_on_original_boundary
            ∨ f = inc_within ∨ f = inc_within_near_offsetted)
          ∧ dispatch point_in_geometry m_turns turn piece mutable_turn
              neighbour code
            = index_set m_turns turn.turn_index (f mutable_turn) := by
  cases code <;> simp only [dispatch, exact_fallback] <;>
    first
    | exact Or.inl trivial
    | exact Or.inl rfl
    | exact Or.inr ⟨inc_on_offsetted, by simp, rfl⟩
    | exact Or.inr ⟨inc_on_original_boundary, by simp, rfl⟩
    | exact Or.inr ⟨inc_within, by simp, rfl⟩
    | (split_ifs <;>
        first
        | exact Or.inl trivial
        | exact Or.inl rfl
        | exact Or.inr ⟨inc_within, by simp, rfl⟩
        | exact Or.inr ⟨inc_within_near_offsetted, by simp, rfl⟩)

/-- One step of the neighbour loop returns when the generating piece is
stored. -/
theorem neighbour_step_total {m_pieces : List Piece} {op : turn_operation}
    {g : Piece} (piece : Piece) (nb : Bool)
    (hg : index_get m_pieces op.piece_index = some g) :
    ∃ r, neighbour_step m_pieces op piece nb = some r := by
  unfold neighbour_step
  rw [hg]
  simp only
  split_ifs <;> exact ⟨_, rfl⟩

/-- The neighbour loop returns when both generating pieces are stored. -/
theorem neighbour_loop_total {m_pieces : List Piece} {turn : Turn}
    {g0 g1 : Piece} (piece : Piece)
    (hg0 : index_get m_pieces turn.operations_0.piece_index = some g0)
    (hg1 : index_get m_pieces turn.operations_1.piece_index = some g1) :
    ∃ r, neighbour_loop m_pieces turn piece = some r := by
  unfold neighbour_loop
  obtain ⟨r0, h0⟩ := neighbour_step_total piece false hg0
  rw [h0]
  cases r0 with
  | rejected => exact ⟨_, rfl⟩
  | proceed nb => exact neighbour_step_total piece nb hg1

/-- On well-formed input a call returns, and the collection is left as it is
or the turn stored at `turn_index` has one counter incremented. -/
theorem apply_cases (point_in_geometry : Point → List Point → Int)
    {m_pieces : List Piece} {m_turns : List Turn} {turn : Turn}
    {piece g0 g1 : Piece} {mutable_turn : Turn}
    (hg0 : index_get m_pieces turn.operations_0.piece_index = some g0)
    (hg1 : index_get m_pieces turn.operations_1.piece_index = some g1)
    (hwf : piece.offsetted_count ≤ piece.robust_ring.length)
    (hmt : index_get m_turns turn.turn_index = some mutable_turn) :
    turn_in_piece_visitor.apply point_in_geometry m_pieces m_turns turn piece
        = some m_turns
      ∨ ∃ f, (f = inc_on_offsetted ∨ f = inc_on_original_boundary
            ∨ f = inc_within ∨ f = inc_within_near_offsetted)
          ∧ turn_in_piece_visitor.apply point_in_geometry m_pieces m_turns
              turn piece
            = some (index_set m_turns turn.turn_index (f mutable_turn)) := by
  unfold turn_in_piece_visitor.apply
  split_ifs
  · exact Or.inl rfl
  · exact Or.inl rfl
  · exact Or.inl rfl
  · obtain ⟨r, hr⟩ := neighbour_loop_total piece hg0 hg1
    rw [hr]
    cases r with
    | rejected => exact Or.inl rfl
    | proceed nb =>
      obtain ⟨code, hcode⟩ := apply_total turn.robust_point piece hwf
      simp only [hcode, hmt]
      rcases dispatch_cases point_in_geometry m_turns turn piece mutable_turn
        nb code with h | ⟨f, hf, h⟩
      · exact Or.inl (congrArg some h)
      · exact Or.inr ⟨f, hf, congrArg some h⟩

/-- A call for a turn that is already within returns the collection as it
is. -/
theorem apply_of_count_within_pos (point_in_geometry : Point → List Point → Int)
    (m_pieces : List Piece) (m_turns : List Turn) {turn : Turn} (piece : Piece)
    (h : 0 < turn.count_within) :
    turn_in_piece_visitor.apply point_in_geometry m_pieces m_turns turn piece
      = some m_turns := by
  unfold turn_in_piece_visitor.apply
  rw [if_pos h]

/-- A sweep for a turn that is already within returns the collection as it
is. -/
theorem sweep_of_count_within_pos (point_in_geometry : Point → List Point → Int)
    (m_pieces : List Piece) (idx : Int) (m_turns : List Turn) {turn : Turn}
    (hturn : index_get m_turns idx = some turn) (h : 0 < turn.count_within) :
    ∀ pieces : List Piece,
      sweep point_in_geometry m_pieces idx m_turns pieces = some m_turns := by
  intro pieces
  induction pieces with
  | nil => rfl
  | cons piece rest ih =>
    unfold sweep
    simp only [hturn, apply_of_count_within_pos point_in_geometry m_pieces m_turns piece h]
    exact ih

/-- A sweep from a turn whose `count_within` is 0 or 1 returns on well-formed
input and ends with `count_within` 0 or 1. -/
theorem sweep_count_within_le_one (point_in_geometry : Point → List Point → Int)
    (m_pieces : List Piece) (idx : Int) {g0 g1 : Piece} :
    ∀ (pieces : List Piece) (m_turns : List Turn) (turn : Turn),
      index_get m_turns idx = some turn → turn.turn_index = idx →
      index_get m_pieces turn.operations_0.piece_index = some g0 →
      index_get m_pieces turn.operations_1.piece_index = some g1 →
      (∀ piece ∈ pieces, piece.offsetted_count ≤ piece.robust_ring.length) →
      (turn.count_within = 0 ∨ turn.count_within = 1) →
      ∃ m_turns1 turn1,
        sweep point_in_geometry m_pieces idx m_turns pieces = some m_turns1
          ∧ index_get m_turns1 idx = some turn1
          ∧ same_identity turn turn1
          ∧ (turn1.count_within = 0 ∨ turn1.count_within = 1) := by
  intro pieces
  induction pieces with
  | nil =>
    intro m_turns turn hturn _ _ _ _ hc
    exact ⟨m_turns, turn, rfl, hturn, ⟨rfl, rfl, rfl, rfl⟩, hc⟩
  | cons piece rest ih =>
    intro m_turns turn hturn hidx hg0 hg1 hwf hc
    have hwf1 : piece.offsetted_count ≤ piece.robust_ring.length :=
      hwf piece (List.mem_cons_self _ _)
    have hwf2 : ∀ p ∈ rest, p.offsetted_count ≤ p.robust_ring.length :=
      fun p hp => hwf p (List.mem_cons_of_mem _ hp)
    have hmt : index_get m_turns turn.turn_index = some turn := by
      rw [hidx]; exact hturn
    unfold sweep
    simp only [hturn]
    rcases hc with hc | hc
    · rcases apply_cases point_in_geometry hg0 hg1 hwf1 hmt with h | ⟨f, hf, h⟩
      · simp only [h]
        exact ih m_turns turn hturn hidx hg0 hg1 hwf2 (Or.inl hc)
      · simp only [h]
        have hget : index_get (index_set m_turns turn.turn_index (f turn)) idx
            = some (f turn) := by
          rw [hidx]; exact index_get_index_set_self hturn _
        have hid : same_identity turn (f turn) := by
          rcases hf with hf | hf | hf | hf <;> subst hf <;>
            exact ⟨rfl, rfl, rfl, rfl⟩
        have hcf : (f turn).count_within = 0 ∨ (f turn).count_within = 1 := by
          rcases hf with hf | hf | hf | hf <;> subst hf <;>
            simp [inc_on_offsetted, inc_on_original_boundary, inc_within,
              inc_within_near_offsetted, hc]
        obtain ⟨hp, h0, h1, hi⟩ := hid
        obtain ⟨m2, t2, hs, hg, hid2, hc2⟩ :=
          ih _ (f turn) hget (hi.trans hidx) (by rw [h0]; exact hg0)
            (by rw [h1]; exact hg1) hwf2 hcf
        refine ⟨m2, t2, hs, hg, ?_, hc2⟩
        obtain ⟨a, b, c, d⟩ := hid2
        exact ⟨a.trans hp, b.trans h0, c.trans h1, d.trans hi⟩
    · rw [apply_of_count_within_pos point_in_geometry m_pieces m_turns piece
        (by omega)]
      simp only
      exact ih m_turns turn hturn hidx hg0 hg1 hwf2 (Or.inr hc)

/-- Claim C10. For every sweep of orchestrator calls on the turn stored at
`idx`, each call being passed the current state of that turn: if
`count_within` is positive, the sweep returns the collection unchanged; and
from `count_within = 0`, on well-formed input (the turn carries its own index,
its generating pieces are stored, the offset counts are within the rings), the
sweep returns and ends with `count_within` equal to 0 or 1. -/
theorem sweep_idempotent_once_within
    (point_in_geometry : Point → List Point → Int)
    (m_pieces : List Piece) (idx : Int) (m_turns : List Turn)
    (pieces : List Piece) (turn : Turn)
    (hturn : index_get m_turns idx = some turn) :
    (0 < turn.count_within →
        sweep point_in_geometry m_pieces idx m_turns pieces = some m_turns)
      ∧ (turn.count_within = 0 → turn.turn_index = idx →
        (∃ g0, index_get m_pieces turn.operations_0.piece_index = some g0) →
        (∃ g1, index_get m_pieces turn.operations_1.piece_index = some g1) →
        (∀ piece ∈ pieces, piece.offsetted_count ≤ piece.robust_ring.length) →
        ∃ m_turns1 turn1,
          sweep point_in_geometry m_pieces idx m_turns pieces = some m_turns1
            ∧ index_get m_turns1 idx = some turn1
            ∧ (turn1.count_within = 0 ∨ turn1.count_within = 1)) := by
  refine ⟨fun h => sweep_of_count_within_pos point_in_geometry m_pieces idx
    m_turns hturn h pieces, ?_⟩
  rintro hc hidx ⟨g0, hg0⟩ ⟨g1, hg1⟩ hwf
  obtain ⟨m1, t1, hs, hg, _, hc1⟩ :=
    sweep_count_within_le_one point_in_geometry m_pieces idx pieces m_turns
      turn hturn hidx hg0 hg1 hwf (Or.inl hc)
  exact ⟨m1, t1, hs, hg, hc1⟩

/-- Claim C10, witness: a sweep of the first example turn over three pieces. -/
theorem sweep_idempotent_once_within_witness :
    ∃ m_turns1 turn1,
      sweep on_boundary_oracle example_pieces 0 example_turns
          [side_piece, cap_piece, first_piece] = some m_turns1
        ∧ index_get m_turns1 0 = some turn1
        ∧ (turn1.count_within = 0 ∨ turn1.count_within = 1) :=
  (sweep_idempotent_once_within on_boundary_oracle example_pieces 0
    example_turns [side_piece, cap_piece, first_piece] turn_on_helper_edge
    (by decide)).2 (by decide) (by decide) ⟨first_piece, by decide⟩
    ⟨second_piece, by decide⟩ (by decide)

/-! ## The orchestrator: frame of a call -/

/-- Writing at one index leaves the other indices as they are. -/
theorem index_get_index_set_ne {α : Type} {xs : List α} {i j : Int} {w : α}
    (h : index_get xs i = some w) (hij : j ≠ i) (v : α) :
    index_get (index_set xs i v) j = index_get xs j := by
  unfold index_get at h ⊢
  unfold index_set
  split_ifs at h with h0
  by_cases hj : 0 ≤ j
  · rw [if_pos hj, if_pos hj]
    exact List.getElem?_set_ne (by omega)
  · rw [if_neg hj, if_neg hj]

/-- Writing at an index keeps the length. -/
theorem length_index_set {α : Type} (xs : List α) (i : Int) (v : α) :
    (index_set xs i v).length = xs.length := by
  simp [index_set]

/-- Claim C11. On well-formed input (the turn is the element stored at its
`turn_index`, its generating pieces are stored, the offset count of the piece
is within its ring) a call returns a collection of the same length in which
every other position is unchanged and the turn at `turn_index` has the same
point, operations and index, no smaller counter, and a counter sum grown by 0
or by exactly 1. -/
theorem apply_no_op_or_single_increment
    (point_in_geometry : Point → List Point → Int)
    (m_pieces : List Piece) (m_turns : List Turn) (turn : Turn)
    (piece g0 g1 : Piece)
    (hmt : index_get m_turns turn.turn_index = some turn)
    (hg0 : index_get m_pieces turn.operations_0.piece_index = some g0)
    (hg1 : index_get m_pieces turn.operations_1.piece_index = some g1)
    (hwf : piece.offsetted_count ≤ piece.robust_ring.length) :
    ∃ m_turns1 turn1,
      turn_in_piece_visitor.apply point_in_geometry m_pieces m_turns turn piece
          = some m_turns1
        ∧ m_turns1.length = m_turns.length
        ∧ (∀ j, j ≠ turn.turn_index → index_get m_turns1 j = index_get m_turns j)
        ∧ index_get m_turns1 turn.turn_index = some turn1
        ∧ same_identity turn turn1
        ∧ counters_le turn turn1
        ∧ (counter_sum turn1 = counter_sum turn
          ∨ counter_sum turn1 = counter_sum turn + 1) := by
  rcases apply_cases point_in_geometry hg0 hg1 hwf hmt with h | ⟨f, hf, h⟩
  · refine ⟨m_turns, turn, h, rfl, fun _ _ => rfl, hmt, ⟨rfl, rfl, rfl, rfl⟩, ?_,
      Or.inl rfl⟩
    exact ⟨le_refl _, le_refl _, le_refl _, le_refl _⟩
  · refine ⟨_, f turn, h, length_index_set _ _ _,
      fun j hj => index_get_index_set_ne hmt hj _,
      index_get_index_set_self hmt _, ?_, ?_, Or.inr ?_⟩
    · rcases hf with hf | hf | hf | hf <;> subst hf <;> exact ⟨rfl, rfl, rfl, rfl⟩
    · rcases hf with hf | hf | hf | hf <;> subst hf <;>
        simp [counters_le, inc_on_offsetted, inc_on_original_boundary, inc_within,
          inc_within_near_offsetted]
    · rcases hf with hf | hf | hf | hf <;> subst hf <;>
        simp only [counter_sum, inc_on_offsetted, inc_on_original_boundary,
          inc_within, inc_within_near_offsetted] <;> ring

/-- Claim C11, witness: the first example turn against `side_piece`. -/
theorem apply_no_op_or_single_increment_witness :
    ∃ m_turns1 turn1,
      turn_in_piece_visitor.apply on_boundary_oracle example_pieces
          example_turns turn_on_helper_edge side_piece = some m_turns1
        ∧ m_turns1.length = example_turns.length
        ∧ (∀ j, j ≠ turn_on_helper_edge.turn_index →
            index_get m_turns1 j = index_get example_turns j)
        ∧ index_get m_turns1 turn_on_helper_edge.turn_index = some turn1
        ∧ same_identity turn_on_helper_edge turn1
        ∧ counters_le turn_on_helper_edge turn1
        ∧ (counter_sum turn1 = counter_sum turn_on_helper_edge
          ∨ counter_sum turn1 = counter_sum turn_on_helper_edge + 1) :=
  apply_no_op_or_single_increment on_boundary_oracle example_pieces
    example_turns turn_on_helper_edge side_piece first_piece second_piece
    (by decide) (by decide) (by decide) (by decide)

/-- Claim C12. For every call in which no rejection rule fires: if the
classifier returns `disjoint` the collection is unchanged; if it returns
`on_offsetted`, `on_original_boundary` or `within`, the turn stored at
`turn_index` gets only `count_on_offsetted`, only
`count_on_original_boundary`, respectively only `count_within` incremented by
one; and in these four cases the result is the same for every oracle. -/
theorem classifier_dispatch (point_in_geometry : Point → List Point → Int)
    (m_pieces : List Piece) (m_turns : List Turn) (turn : Turn)
    (piece g0 g1 : Piece) (mutable_turn : Turn) (code : analyse_result)
    (hpass : passes_rejection_rules m_pieces turn piece g0 g1)
    (hcode : analyse_turn_wrt_piece.apply turn.robust_point piece = some code)
    (hmt : index_get m_turns turn.turn_index = some mutable_turn)
    (hdec : code = analyse_disjoint ∨ code = analyse_on_offsetted
      ∨ code = analyse_on_original_boundary ∨ code = analyse_within) :
    turn_in_piece_visitor.apply point_in_geometry m_pieces m_turns turn piece
        = some (
          if code = analyse_disjoint then m_turns
          else index_set m_turns turn.turn_index
            (if code = analyse_on_offsetted then
              { mutable_turn with
                count_on_offsetted := mutable_turn.count_on_offsetted + 1 }
            else if code = analyse_on_original_boundary then
              { mutable_turn with
                count_on_original_boundary :=
                  mutable_turn.count_on_original_boundary + 1 }
            else
              { mutable_turn with
                count_within := mutable_turn.count_within + 1 }))
      ∧ ∀ other_oracle : Point → List Point → Int,
          turn_in_piece_visitor.apply other_oracle m_pieces m_turns turn piece
            = turn_in_piece_visitor.apply point_in_geometry m_pieces m_turns
                turn piece := by
  constructor
  · rw [apply_of_passes point_in_geometry hpass hcode hmt]
    rcases hdec with h | h | h | h <;> subst h <;>
      simp [dispatch, inc_on_offsetted, inc_on_original_boundary, inc_within]
  · intro other_oracle
    rw [apply_of_passes point_in_geometry hpass hcode hmt,
      apply_of_passes other_oracle hpass hcode hmt]
    rcases hdec with h | h | h | h <;> subst h <;> simp [dispatch]

/-- Claim C12, witness: the first example turn is `within` for `side_piece`,
whatever the oracle answers. -/
theorem classifier_dispatch_witness :
    turn_in_piece_visitor.apply (fun _ _ => -1) example_pieces example_turns
        turn_on_helper_edge side_piece
      = turn_in_piece_visitor.apply on_boundary_oracle example_pieces
          example_turns turn_on_helper_edge side_piece :=
  (classifier_dispatch on_boundary_oracle example_pieces example_turns
    turn_on_helper_edge side_piece first_piece second_piece
    turn_on_helper_edge analyse_within (by decide) (by decide) (by decide)
    (by decide)).2 (fun _ _ => -1)

/-! ## The classifier: helper stage and ring scan -/

/-- Claim C13. For a piece whose helper count is neither 3 nor 4 the
classifier result is the result of the scan of the offset curve alone: whatever
it returns is `on_offsetted`, `near_offsetted` or `unknown` (never `disjoint`,
`within` or `on_original_boundary`), and it returns when the offset count is
within the ring. -/
theorem malformed_helper_count_decided_by_ring_scan
    (P : Point) (piece : Piece)
    (h : helper_count piece ≠ 3 ∧ helper_count piece ≠ 4) :
    analyse_turn_wrt_piece.apply P piece
        = ring_scan P piece.robust_ring 1 (piece.offsetted_count - 1)
      ∧ (∀ r, analyse_turn_wrt_piece.apply P piece = some r →
          (r = analyse_on_offsetted ∨ r = analyse_near_offsetted
              ∨ r = analyse_unknown)
            ∧ r ≠ analyse_disjoint ∧ r ≠ analyse_within
            ∧ r ≠ analyse_on_original_boundary)
      ∧ (piece.offsetted_count ≤ piece.robust_ring.length →
          ∃ r, analyse_turn_wrt_piece.apply P piece = some r) := by
  have heq : analyse_turn_wrt_piece.apply P piece
      = ring_scan P piece.robust_ring 1 (piece.offsetted_count - 1) := by
    simp [analyse_turn_wrt_piece.apply, check_helper_segments, h.1, h.2]
  refine ⟨heq, ?_, ?_⟩
  · intro r hr
    rw [heq] at hr
    have hres := ring_scan_result _ _ _ _ _ hr
    refine ⟨hres, ?_⟩
    rcases hres with h1 | h1 | h1 <;> simp [h1]
  · intro hwf
    obtain ⟨r, hr, _⟩ := ring_scan_apply_total P piece hwf
    exact ⟨r, heq.trans hr⟩

/-- Claim C13, witness: `two_helper_piece` has two helper points. -/
theorem malformed_helper_count_decided_by_ring_scan_witness :
    helper_count two_helper_piece = 2
      ∧ analyse_turn_wrt_piece.apply ⟨5, 0⟩ two_helper_piece
        = ring_scan ⟨5, 0⟩ two_helper_piece.robust_ring 1
            (two_helper_piece.offsetted_count - 1) :=
  ⟨by decide,
    (malformed_helper_count_decided_by_ring_scan ⟨5, 0⟩ two_helper_piece
      (by decide)).1⟩

/-- A point on a side helper edge within the tolerance of the offset-side
corner is `near_offsetted`. -/
theorem check_helper_segment_near_corner {s1 s2 point offsetted : Point}
    (h : on_segment s1 s2 point)
    (hnear : comparable_distance point offsetted ≤ 1) :
    check_helper_segment s1 s2 point false offsetted
      = analyse_near_offsetted := by
  obtain ⟨hs, hc⟩ := h
  unfold check_helper_segment
  simp [hs, hc, hnear]

/-- Claim C14, counterexample. The point `(12,8)` lies on the right helper
edge `(10,10) -> (14,6)` of `side_piece`, is no helper corner and is farther
than the tolerance from `(10,10)`: the classifier returns `within`. -/
theorem side_edge_collinear_counterexample :
    has_helper_corners side_piece ⟨10, 10⟩ ⟨14, 6⟩ ⟨4, -4⟩ ⟨0, 0⟩
      ∧ on_segment ⟨10, 10⟩ ⟨14, 6⟩ ⟨12, 8⟩
      ∧ 1 < comparable_distance ⟨12, 8⟩ ⟨10, 10⟩
      ∧ analyse_turn_wrt_piece.apply ⟨12, 8⟩ side_piece
        = some analyse_within := by
  decide

/-- Claim C14 (amended). For a piece with 3 or 4 helper points and a point
equal to no helper corner that lies on the right helper edge `H0->H1` (or is
strictly right of it and lies on the left helper edge `H2->H3`), the
classifier returns `within`, unless the point is within squared distance 1 of
the offset-side corner of that edge (`H0`, respectively `H3`), in which case it
returns `near_offsetted`. -/
theorem side_edge_collinear_within_or_near (P : Point) (piece : Piece)
    (H0 H1 H2 H3 : Point)
    (hq : has_helper_corners piece H0 H1 H2 H3)
    (hne : P ≠ H0 ∧ P ≠ H1 ∧ P ≠ H2 ∧ P ≠ H3) :
    (on_segment H0 H1 P →
        analyse_turn_wrt_piece.apply P piece
          = some (if comparable_distance P H0 ≤ 1 then analyse_near_offsetted
              else analyse_within))
      ∧ (side H0 H1 P = -1 → on_segment H2 H3 P →
        analyse_turn_wrt_piece.apply P piece
          = some (if comparable_distance P H3 ≤ 1 then analyse_near_offsetted
              else analyse_within)) := by
  obtain ⟨n0, n1, n2, n3⟩ := hne
  have hpts : ∀ r, r ≠ analyse_continue →
      ((check_helper_segment H0 H1 P false H0 = r)
        ∨ (check_helper_segment H0 H1 P false H0 = analyse_continue
          ∧ check_helper_segment H2 H3 P false H3 = r)) →
      analyse_turn_wrt_piece.apply P piece = some r := by
    intro r hr hcase
    rw [apply_of_corners hq]
    have hp : check_helper_points P piece H0 H1 H2 H3 = r := by
      unfold check_helper_points
      rw [if_neg (by simp [n0, n3]), if_neg (by simp [n1, n2])]
      rcases hcase with h | ⟨h1, h2⟩
      · simp [h, hr]
      · simp [h1, h2, hr]
    rw [hp, if_pos hr]
  constructor
  · intro hseg
    by_cases hd : comparable_distance P H0 ≤ 1
    · rw [if_pos hd]
      exact hpts _ (by simp) (Or.inl (check_helper_segment_near_corner hseg hd))
    · rw [if_neg hd]
      exact hpts _ (by simp)
        (Or.inl (check_helper_segment_on_side_edge hseg (by omega)))
  · intro hright hseg
    have hc := check_helper_segment_of_right hright false H0
    by_cases hd : comparable_distance P H3 ≤ 1
    · rw [if_pos hd]
      exact hpts _ (by simp)
        (Or.inr ⟨hc, check_helper_segment_near_corner hseg hd⟩)
    · rw [if_neg hd]
      exact hpts _ (by simp)
        (Or.inr ⟨hc, check_helper_segment_on_side_edge hseg (by omega)⟩)

/-- Claim C14, witness: a point of the right helper edge of `side_piece` and a
point of the right helper edge of `cap_piece` next to its corner. -/
theorem side_edge_collinear_within_or_near_witness :
    analyse_turn_wrt_piece.apply ⟨12, 8⟩ side_piece = some analyse_within
      ∧ analyse_turn_wrt_piece.apply ⟨10, -1⟩ cap_piece
        = some analyse_near_offsetted :=
  ⟨(side_edge_collinear_within_or_near ⟨12, 8⟩ side_piece
      ⟨10, 10⟩ ⟨14, 6⟩ ⟨4, -4⟩ ⟨0, 0⟩ (by decide) (by decide)).1 (by decide),
    (side_edge_collinear_within_or_near ⟨10, -1⟩ cap_piece
      ⟨10, 0⟩ ⟨10, -5⟩ ⟨0, -5⟩ ⟨0, 0⟩ (by decide) (by decide)).1 (by decide)⟩

/-- The value of the orientation predicate is `-1`, `0` or `1`. -/
theorem side_cases (p1 p2 p : Point) :
    side p1 p2 p = 0 ∨ side p1 p2 p = 1 ∨ side p1 p2 p = -1 := by
  unfold side
  simp only
  split_ifs <;> simp

/-- Claim C15. For a piece with 3 or 4 helper points and a point strictly
right of every evaluated helper edge (hence equal to no helper corner) and not
covered by the envelope of the offset curve, the classifier returns `within`
when the point is strictly right of `H3->H0` and `disjoint` when it is left of
or collinear with it; the answer is the same for every ring with these helper
corners and this envelope, so the offset curve is not consulted. -/
theorem interior_shortcut_outcome (P : Point) (piece : Piece)
    (H0 H1 H2 H3 : Point)
    (hq : has_helper_corners piece H0 H1 H2 H3)
    (h01 : side H0 H1 P = -1) (h23 : side H2 H3 P = -1)
    (h12 : H1 ≠ H2 → side H1 H2 P = -1)
    (henv : covered_by P piece.robust_offsetted_envelope = false) :
    (side H3 H0 P = -1 →
        analyse_turn_wrt_piece.apply P piece = some analyse_within)
      ∧ (side H3 H0 P = 1 ∨ side H3 H0 P = 0 →
        analyse_turn_wrt_piece.apply P piece = some analyse_disjoint)
      ∧ ∀ other : Piece, has_helper_corners other H0 H1 H2 H3 →
          other.robust_offsetted_envelope = piece.robust_offsetted_envelope →
          analyse_turn_wrt_piece.apply P other
            = analyse_turn_wrt_piece.apply P piece := by
  have key : ∀ pc : Piece, has_helper_corners pc H0 H1 H2 H3 →
      covered_by P pc.robust_offsetted_envelope = false →
      analyse_turn_wrt_piece.apply P pc
        = some (if side H3 H0 P = -1 then analyse_within
            else analyse_disjoint) := by
    intro pc hpc hcov
    rw [apply_of_corners hpc, check_helper_points_of_right P pc h01 h23 h12]
    simp only [hcov, if_true]
    by_cases hs : side H3 H0 P = -1
    · simp [hs]
    · simp [hs]
  refine ⟨fun h => ?_, fun h => ?_, fun other ho he => ?_⟩
  · rw [key piece hq henv, if_pos h]
  · rw [key piece hq henv, if_neg (by omega)]
  · rw [key piece hq henv, key other ho (by rw [he]; exact henv)]

/-- Claim C15, witness: the point `(-1,3)` is beyond the offset segment of
`side_piece` and outside its envelope. -/
theorem interior_shortcut_outcome_witness :
    covered_by ⟨-1, 3⟩ side_piece.robust_offsetted_envelope = false
      ∧ side ⟨0, 0⟩ ⟨10, 10⟩ ⟨-1, 3⟩ = 1
      ∧ analyse_turn_wrt_piece.apply ⟨-1, 3⟩ side_piece
        = some analyse_disjoint :=
  ⟨by decide, by decide,
    (interior_shortcut_outcome ⟨-1, 3⟩ side_piece
      ⟨10, 10⟩ ⟨14, 6⟩ ⟨4, -4⟩ ⟨0, 0⟩ (by decide) (by decide) (by decide)
      (by decide) (by decide)).2.1 (by decide)⟩

/-- The scan reads only the part of the ring it is told to scan. -/
theorem ring_scan_append (P : Point) (O X : List Point) :
    ∀ (n i : Nat), i + n ≤ O.length →
      ring_scan P (O ++ X) i n = ring_scan P O i n := by
  intro n
  induction n with
  | zero => intro i _; rfl
  | succ n ih =>
    intro i hlen
    have h1 : i - 1 < O.length := by omega
    have h2 : i < O.length := by omega
    unfold ring_scan
    rw [List.getElem?_append_left h1, List.getElem?_append_left h2,
      ih (i + 1) (by omega)]

/-- The scan of `apply` over an offset curve `O` does not depend on what
follows the curve in the ring. -/
theorem ring_scan_apply_append (P : Point) (O X : List Point) :
    ring_scan P (O ++ X) 1 (O.length - 1) = ring_scan P O 1 (O.length - 1) := by
  by_cases h : O.length - 1 = 0
  · rw [h]; rfl
  · exact ring_scan_append P O X _ 1 (by omega)

/-- The four-corner helper stage with the middle corner doubled is the helper
stage of the triangle. -/
theorem check_helper_points_doubled (P : Point) (piece : Piece)
    (A B C : Point) :
    check_helper_points P piece A B B C
      = check_triangle_points P piece.robust_offsetted_envelope A B C := by
  unfold check_helper_points check_triangle_points
  simp only [ne_eq, not_true_eq_false, if_false, or_self]
  by_cases hc : covered_by P piece.robust_offsetted_envelope = false
  · rcases side_cases C A P with hs | hs | hs <;> simp [hc, hs]
  · simp [hc]

/-- Claim C16. For every offset curve `O`, helper points `A`, `B`, `C` and
point `P`, the classifier gives the same result on a piece with ring
`O ++ [A, B, C]` and on a piece with ring `O ++ [A, B, B, C]` that has the same
offset count and offset envelope; on both the helper stage is the helper stage
of the triangle, which has no original-boundary edge test. -/
theorem triangular_normalization (P : Point) (piece3 piece4 : Piece)
    (O : List Point) (A B C : Point)
    (h3 : piece3.robust_ring = O ++ [A, B, C])
    (h4 : piece4.robust_ring = O ++ [A, B, B, C])
    (hoc3 : piece3.offsetted_count = O.length)
    (hoc4 : piece4.offsetted_count = O.length)
    (henv : piece4.robust_offsetted_envelope
      = piece3.robust_offsetted_envelope) :
    analyse_turn_wrt_piece.apply P piece4
        = analyse_turn_wrt_piece.apply P piece3
      ∧ check_helper_segments P piece3
        = some (check_triangle_points P piece3.robust_offsetted_envelope A B C)
      ∧ check_helper_segments P piece4
        = some (check_triangle_points P piece3.robust_offsetted_envelope
            A B C) := by
  have hq3 : has_helper_corners piece3 A B B C := by
    right
    rw [h3, hoc3]
    simp
  have hq4 : has_helper_corners piece4 A B B C := by
    left
    rw [h4, hoc4]
    simp
  have e3 := check_helper_segments_of_corners hq3 P
  have e4 := check_helper_segments_of_corners hq4 P
  rw [check_helper_points_doubled] at e3 e4
  rw [henv] at e4
  refine ⟨?_, e3, e4⟩
  simp only [analyse_turn_wrt_piece.apply, e3, e4, h3, h4, hoc3, hoc4,
    ring_scan_apply_append]

/-- Claim C16, witness: the two example triangles at the point `(12,8)`. -/
theorem triangular_normalization_witness :
    analyse_turn_wrt_piece.apply ⟨12, 8⟩ doubled_triangle_piece
      = analyse_turn_wrt_piece.apply ⟨12, 8⟩ triangle_piece :=
  (triangular_normalization ⟨12, 8⟩ triangle_piece doubled_triangle_piece
    [⟨0, 0⟩, ⟨10, 10⟩] ⟨10, 10⟩ ⟨14, 6⟩ ⟨0, 0⟩ (by decide) (by decide)
    (by decide) (by decide) (by decide)).1

/-- A value within the range of the coordinate type is stored as it is. -/
theorem to_coordinate_type_of_in_range {z : Int}
    (h0 : -9223372036854775808 ≤ z) (h1 : z < 9223372036854775808) :
    to_coordinate_type z = z := by
  unfold to_coordinate_type
  omega

/-- A square that fits the coordinate type is computed exactly. -/
theorem to_coordinate_type_square {previous current P : Point}
    (h : square_in_range previous current P) :
    to_coordinate_type
        (side_value previous current P * side_value previous current P)
      = side_value previous current P * side_value previous current P :=
  to_coordinate_type_of_in_range
    (le_trans (by decide) (mul_self_nonneg (side_value previous current P))) h

/-- When the square fits the coordinate type, the verdict of a segment of two
different points is what `check_segment` answers when it does not go on. -/
theorem decisive_verdict_eq {previous current : Point} (P : Point)
    (h : previous ≠ current) (hr : square_in_range previous current P) :
    decisive_verdict previous current P
      = if check_segment previous current P = analyse_continue then none
        else some (check_segment previous current P) := by
  unfold decisive_verdict check_segment
  simp only [if_neg h, to_coordinate_type_square hr]
  by_cases h1 : side_value previous current P = 0
      ∧ covered_by P (segment_box previous current) = true
  · simp [h1]
  · simp only [if_neg h1]
    by_cases h2 : side_value previous current P < 0
        ∧ covered_by P (segment_box previous current) = true
    · by_cases h3 : side_value previous current P * side_value previous current P
          < comparable_distance previous current
      · simp [h2, h3]
      · simp [h2, h3]
    · have h4 : ¬ (side_value previous current P < 0
          ∧ covered_by P (segment_box previous current) = true
          ∧ side_value previous current P * side_value previous current P
            < comparable_distance previous current) :=
        fun h => h2 ⟨h.1, h.2.1⟩
      simp [h2, h4]

/-- When every square fits the coordinate type, the scan is the search of the
first decisive segment. -/
theorem ring_scan_eq_findSome (P : Point) (ring : List Point)
    (hr : ∀ (j : Nat) (a b : Point), ring[j - 1]? = some a → ring[j]? = some b →
      square_in_range a b P) :
    ∀ (n i : Nat), 1 ≤ i → i + n ≤ ring.length →
      ring_scan P ring i n
        = some (((List.range' i n).findSome? (verdict_at P ring)).getD
            analyse_unknown) := by
  intro n
  induction n with
  | zero => intro i _ _; rfl
  | succ n ih =>
    intro i hi hlen
    have h1 : i - 1 < ring.length := by omega
    have h2 : i < ring.length := by omega
    have hv : verdict_at P ring i
        = decisive_verdict (ring[i - 1]) (ring[i]) P := by
      unfold verdict_at
      rw [List.getElem?_eq_getElem h1, List.getElem?_eq_getElem h2]
    have hsq : square_in_range (ring[i - 1]) (ring[i]) P :=
      hr i _ _ (List.getElem?_eq_getElem h1) (List.getElem?_eq_getElem h2)
    unfold ring_scan
    rw [List.getElem?_eq_getElem h1, List.getElem?_eq_getElem h2,
      List.range'_succ, List.findSome?_cons, hv]
    simp only
    rw [ih (i + 1) (by omega) (by omega)]
    by_cases hne : ring[i - 1] = ring[i]
    · simp [hne, decisive_verdict]
    · rw [decisive_verdict_eq P hne hsq]
      by_cases hc : check_segment (ring[i - 1]) (ring[i]) P = analyse_continue
      · simp [hne, hc]
      · simp [hne, hc]

/-- When the helper stage is inconclusive, the offset count is within the ring
and every square fits the coordinate type, the classifier returns the verdict
of the first decisive segment of the offset curve, and `unknown` when there is
none. -/
theorem apply_eq_first_decisive_of_in_range (P : Point) (piece : Piece)
    (hinc : check_helper_segments P piece = some analyse_continue)
    (hwf : piece.offsetted_count ≤ piece.robust_ring.length)
    (hr : ∀ (j : Nat) (a b : Point), piece.robust_ring[j - 1]? = some a →
      piece.robust_ring[j]? = some b → square_in_range a b P) :
    analyse_turn_wrt_piece.apply P piece
      = some ((first_decisive_segment P piece.robust_ring
          piece.offsetted_count).getD analyse_unknown) := by
  have heq : analyse_turn_wrt_piece.apply P piece
      = ring_scan P piece.robust_ring 1 (piece.offsetted_count - 1) := by
    simp [analyse_turn_wrt_piece.apply, hinc]
  rw [heq]
  unfold first_decisive_segment
  by_cases h0 : piece.offsetted_count - 1 = 0
  · rw [h0]; rfl
  · exact ring_scan_eq_findSome P piece.robust_ring hr _ 1 (le_refl 1) (by omega)

/-- Claim C17, the defect in the code. On `thick_piece` at the point
`(65536,0)` the helper stage is inconclusive and no segment of the offset curve
is decisive: for the only segment `(0,0) -> (65536,65536)` the area is
`-2 ^ 32`, not zero, and its square `2 ^ 64` is not below the squared length
`2 ^ 33`. The claim gives `unknown`. In the code the square wraps around to 0
in the coordinate type, the test of case (b) passes and the classifier returns
`near_offsetted`. -/
theorem ring_scan_decisive_by_overflow :
    thick_piece.offsetted_count ≤ thick_piece.robust_ring.length
      ∧ check_helper_segments ⟨65536, 0⟩ thick_piece = some analyse_continue
      ∧ side_value ⟨0, 0⟩ ⟨65536, 65536⟩ ⟨65536, 0⟩ = -4294967296
      ∧ comparable_distance ⟨0, 0⟩ ⟨65536, 65536⟩ = 8589934592
      ∧ first_decisive_segment ⟨65536, 0⟩ thick_piece.robust_ring
          thick_piece.offsetted_count = none
      ∧ analyse_turn_wrt_piece.apply ⟨65536, 0⟩ thick_piece
        = some analyse_near_offsetted := by
  decide

/-- The helper stage looks at the piece only through its offset envelope. -/
theorem check_helper_points_congr (P : Point) {piece other : Piece}
    (henv : other.robust_offsetted_envelope = piece.robust_offsetted_envelope)
    (p0 p1 p2 p3 : Point) :
    check_helper_points P other p0 p1 p2 p3
      = check_helper_points P piece p0 p1 p2 p3 := by
  unfold check_helper_points
  rw [henv]

/-- The helper stage depends on the helper count, the points after the offset
curve and the offset envelope only. -/
theorem check_helper_segments_congr (P : Point) {piece other : Piece}
    (hcount : helper_count other = helper_count piece)
    (hdrop : other.robust_ring.drop other.offsetted_count
      = piece.robust_ring.drop piece.offsetted_count)
    (henv : other.robust_offsetted_envelope
      = piece.robust_offsetted_envelope) :
    check_helper_segments P other = check_helper_segments P piece := by
  have hget : ∀ i, other.robust_ring[other.offsetted_count + i]?
      = piece.robust_ring[piece.offsetted_count + i]? := by
    intro i
    rw [getElem?_of_drop hdrop i, ← List.getElem?_drop]
  unfold check_helper_segments
  simp only [hcount, hget, check_helper_points_congr P henv]

/-- Scanning a ring with one more leading point, one index further. -/
theorem ring_scan_cons (P a : Point) (l : List Point) :
    ∀ (n i : Nat), 1 ≤ i →
      ring_scan P (a :: l) (i + 1) n = ring_scan P l i n := by
  intro n
  induction n with
  | zero => intro i _; rfl
  | succ n ih =>
    intro i hi
    have e1 : (a :: l)[i + 1 - 1]? = l[i - 1]? := by
      obtain ⟨k, rfl⟩ : ∃ k, i = k + 1 := ⟨i - 1, by omega⟩
      simp
    have e2 : (a :: l)[i + 1]? = l[i]? := by simp
    unfold ring_scan
    rw [e1, e2, ih (i + 1) (by omega)]

/-- A segment of two equal points is passed over by the scan. -/
theorem ring_scan_skip_duplicate (P d : Point) (ring : List Point)
    (i n : Nat) (h1 : ring[i - 1]? = some d) (h2 : ring[i]? = some d) :
    ring_scan P ring i (n + 1) = ring_scan P ring (i + 1) n := by
  rw [ring_scan, h1, h2]
  simp

/-- Writing a point of the scanned part twice and scanning one segment more
gives the same result. -/
theorem ring_scan_insert_duplicate (P d : Point) (post : List Point) :
    ∀ (pre : List Point) (m : Nat), pre.length ≤ m →
      ring_scan P (pre ++ d :: d :: post) 1 (m + 1)
        = ring_scan P (pre ++ d :: post) 1 m := by
  intro pre
  induction pre with
  | nil =>
    intro m _
    rw [List.nil_append, List.nil_append,
      ring_scan_skip_duplicate P d (d :: d :: post) 1 m (by simp) (by simp)]
    exact ring_scan_cons P d (d :: post) m 1 (le_refl 1)
  | cons a pre ih =>
    intro m hm
    obtain ⟨k, rfl⟩ : ∃ k, m = k + 1 := ⟨m - 1, by simp at hm; omega⟩
    have hk : pre.length ≤ k := by simp at hm; omega
    have hhead : (pre ++ d :: d :: post)[0]? = (pre ++ d :: post)[0]? := by
      cases pre <;> simp
    have e := ih k hk
    have s1 := ring_scan_cons P a (pre ++ d :: d :: post) (k + 1) 1 (le_refl 1)
    have s2 := ring_scan_cons P a (pre ++ d :: post) k 1 (le_refl 1)
    rw [List.cons_append, List.cons_append]
    rw [ring_scan.eq_def P (a :: (pre ++ d :: d :: post)) 1 (k + 1 + 1)]
    rw [ring_scan.eq_def P (a :: (pre ++ d :: post)) 1 (k + 1)]
    simp only [Nat.sub_self, List.getElem?_cons_zero, List.getElem?_cons_succ,
      hhead, s1, s2, e]

/-- Claim C18. For a piece with ring `pre ++ d :: post` and a piece with ring
`pre ++ d :: d :: post` (the point at position `k = pre.length` written twice,
`k` below the offset count), one more offset point and the same offset
envelope, the classifier gives the same result; and a segment of two equal
points is passed over by the scan whatever the point, so that a piece whose
offset curve is the point `d` twice is `unknown` at `d`. -/
theorem duplicate_offset_point_invisible (P d : Point) (piece other : Piece)
    (pre post : List Point)
    (hring : piece.robust_ring = pre ++ d :: post)
    (hk : pre.length < piece.offsetted_count)
    (hother : other.robust_ring = pre ++ d :: d :: post)
    (hoc : other.offsetted_count = piece.offsetted_count + 1)
    (henv : other.robust_offsetted_envelope
      = piece.robust_offsetted_envelope) :
    analyse_turn_wrt_piece.apply P other
        = analyse_turn_wrt_piece.apply P piece
      ∧ (∀ (ring : List Point) (i n : Nat),
          ring[i - 1]? = some d → ring[i]? = some d →
          ring_scan P ring i (n + 1) = ring_scan P ring (i + 1) n)
      ∧ ring_scan d [d, d] 1 1 = some analyse_unknown := by
  have hcount : helper_count other = helper_count piece := by
    unfold helper_count
    rw [hring, hother, hoc]
    simp
    omega
  have hdrop : other.robust_ring.drop other.offsetted_count
      = piece.robust_ring.drop piece.offsetted_count := by
    obtain ⟨t, ht⟩ : ∃ t, piece.offsetted_count = pre.length + (t + 1) :=
      ⟨piece.offsetted_count - pre.length - 1, by omega⟩
    rw [hring, hother, hoc, ht]
    rw [show pre.length + (t + 1) + 1 = pre.length + (t + 2) by omega]
    rw [List.drop_append, List.drop_append]
    simp
  have hhelper := check_helper_segments_congr P hcount hdrop henv
  have hscan : ring_scan P other.robust_ring 1 (other.offsetted_count - 1)
      = ring_scan P piece.robust_ring 1 (piece.offsetted_count - 1) := by
    rw [hring, hother, hoc]
    have := ring_scan_insert_duplicate P d post pre (piece.offsetted_count - 1)
      (by omega)
    rw [show piece.offsetted_count + 1 - 1 = piece.offsetted_count - 1 + 1 by omega]
    exact this
  refine ⟨?_, fun ring i n h1 h2 => ring_scan_skip_duplicate P d ring i n h1 h2, ?_⟩
  · simp only [analyse_turn_wrt_piece.apply, hhelper, hscan]
  · simp [ring_scan]

/-- Claim C18, witness: `side_piece` and `side_piece_duplicated` at the point
`(5,4)`. -/
theorem duplicate_offset_point_invisible_witness :
    analyse_turn_wrt_piece.apply ⟨5, 4⟩ side_piece_duplicated
        = analyse_turn_wrt_piece.apply ⟨5, 4⟩ side_piece
      ∧ analyse_turn_wrt_piece.apply ⟨5, 4⟩ side_piece
        = some analyse_near_offsetted :=
  ⟨(duplicate_offset_point_invisible ⟨5, 4⟩ ⟨0, 0⟩ side_piece
      side_piece_duplicated [] [⟨10, 10⟩, ⟨10, 10⟩, ⟨14, 6⟩, ⟨4, -4⟩, ⟨0, 0⟩]
      (by decide) (by decide) (by decide) (by decide) (by decide)).1,
    by decide⟩

/-- The squared distance of two different points is positive. -/
theorem comparable_distance_pos {p q : Point} (h : p ≠ q) :
    0 < comparable_distance p q := by
  unfold comparable_distance
  by_contra hle
  have hx : 0 ≤ (p.x - q.x) * (p.x - q.x) := mul_self_nonneg _
  have hy : 0 ≤ (p.y - q.y) * (p.y - q.y) := mul_self_nonneg _
  have hx0 : (p.x - q.x) * (p.x - q.x) = 0 := by omega
  have hy0 : (p.y - q.y) * (p.y - q.y) = 0 := by omega
  have ex : p.x = q.x := by
    have := mul_self_eq_zero.mp hx0
    omega
  have ey : p.y = q.y := by
    have := mul_self_eq_zero.mp hy0
    omega
  apply h
  cases p
  cases q
  simp_all

/-- The point is strictly right of the segment when the twice-signed-area is
negative. -/
theorem side_eq_neg_one_iff (p1 p2 p : Point) :
    side p1 p2 p = -1 ↔ side_value p1 p2 p < 0 := by
  unfold side
  simp only
  split_ifs with h0 h1
  · simp [h0]
  · constructor
    · intro h; exact absurd h (by decide)
    · intro h; omega
  · constructor
    · intro _; omega
    · intro _; rfl

/-- When the square of the twice-signed-area fits the coordinate type, for
points `previous ≠ current` and `P`, `check_segment` returns `near_offsetted`
exactly when `P` is strictly right of the directed segment, covered by its
bounding box, and the squared perpendicular distance
`twice_area ^ 2 / |previous - current| ^ 2`, as an exact rational, is strictly
less than 1. -/
theorem near_offsetted_iff_of_in_range (previous current P : Point)
    (h : previous ≠ current) (hr : square_in_range previous current P) :
    check_segment previous current P = analyse_near_offsetted
      ↔ side previous current P = -1
        ∧ covered_by P (segment_box previous current) = true
        ∧ ((side_value previous current P : ℚ) ^ 2
            / (comparable_distance previous current : ℚ) < 1) := by
  have hpos := comparable_distance_pos h
  have hposq : (0 : ℚ) < (comparable_distance previous current : ℚ) := by
    exact_mod_cast hpos
  have hdiv : ((side_value previous current P : ℚ) ^ 2
        / (comparable_distance previous current : ℚ) < 1)
      ↔ side_value previous current P * side_value previous current P
        < comparable_distance previous current := by
    rw [div_lt_one hposq, pow_two]
    exact_mod_cast Iff.rfl
  rw [side_eq_neg_one_iff, hdiv]
  unfold check_segment
  simp only [to_coordinate_type_square hr]
  by_cases h1 : side_value previous current P = 0
      ∧ covered_by P (segment_box previous current) = true
  · have : ¬ side_value previous current P < 0 := by omega
    simp [h1, this]
  · rw [if_neg h1]
    by_cases h2 : side_value previous current P < 0
        ∧ covered_by P (segment_box previous current) = true
    · rw [if_pos h2]
      by_cases h3 : side_value previous current P * side_value previous current P
          < comparable_distance previous current
      · simp [h2.1, h2.2, h3]
      · simp [h3]
    · rw [if_neg h2]
      constructor
      · intro hc; exact absurd hc (by simp)
      · intro hc; exact absurd ⟨hc.1, hc.2.1⟩ h2

/-- Claim C19, the defect in the code. For the segment
`(0,0) -> (65536,65536)` and the point `(65536,0)`, which is strictly right of
the segment and covered by its box, the area is `-2 ^ 32` and the squared
length `2 ^ 33`, so the squared perpendicular distance is `2 ^ 31`, far above
1; the square of the area, `2 ^ 64`, wraps around to 0 in the coordinate type
and `check_segment` returns `near_offsetted`. -/
theorem near_offsetted_by_overflow :
    (⟨0, 0⟩ : Point) ≠ ⟨65536, 65536⟩
      ∧ side ⟨0, 0⟩ ⟨65536, 65536⟩ ⟨65536, 0⟩ = -1
      ∧ covered_by ⟨65536, 0⟩ (segment_box ⟨0, 0⟩ ⟨65536, 65536⟩) = true
      ∧ side_value ⟨0, 0⟩ ⟨65536, 65536⟩ ⟨65536, 0⟩
          * side_value ⟨0, 0⟩ ⟨65536, 65536⟩ ⟨65536, 0⟩
        = 2147483648 * comparable_distance ⟨0, 0⟩ ⟨65536, 65536⟩
      ∧ ¬ ((side_value ⟨0, 0⟩ ⟨65536, 65536⟩ ⟨65536, 0⟩ : ℚ) ^ 2
          / (comparable_distance ⟨0, 0⟩ ⟨65536, 65536⟩ : ℚ) < 1)
      ∧ to_coordinate_type
          (side_value ⟨0, 0⟩ ⟨65536, 65536⟩ ⟨65536, 0⟩
            * side_value ⟨0, 0⟩ ⟨65536, 65536⟩ ⟨65536, 0⟩) = 0
      ∧ check_segment ⟨0, 0⟩ ⟨65536, 65536⟩ ⟨65536, 0⟩
        = analyse_near_offsetted := by
  refine ⟨by decide, by decide, by decide, by decide, ?_, by decide, by decide⟩
  have h1 : side_value ⟨0, 0⟩ ⟨65536, 65536⟩ ⟨65536, 0⟩ = -4294967296 := by
    decide
  have h2 : comparable_distance ⟨0, 0⟩ ⟨65536, 65536⟩ = 8589934592 := by
    decide
  rw [h1, h2]
  norm_num

/-- Claim C20. For a piece whose offset count is within its ring and every
point: when the helper count is 4 the ring has the four points
`offsetted_count + 0 .. 3` the helper stage reads, when it is 3 the three
points `offsetted_count + 0 .. 2`; the scan gives the same result on the first
`offsetted_count` points of the ring alone, so it reads indices below
`offsetted_count` only; and the helper stage, the scan and the classifier
return a result: the out-of-range branch is not taken. -/
theorem ring_indexing_in_bounds (P : Point) (piece : Piece)
    (hwf : piece.offsetted_count ≤ piece.robust_ring.length) :
    (helper_count piece = 4 → ∀ j, j < 4 →
        ∃ p, piece.robust_ring[piece.offsetted_count + j]? = some p)
      ∧ (helper_count piece = 3 → ∀ j, j < 3 →
        ∃ p, piece.robust_ring[piece.offsetted_count + j]? = some p)
      ∧ (∃ r, check_helper_segments P piece = some r)
      ∧ ring_scan P (piece.robust_ring.take piece.offsetted_count) 1
          (piece.offsetted_count - 1)
        = ring_scan P piece.robust_ring 1 (piece.offsetted_count - 1)
      ∧ (∃ r, ring_scan P piece.robust_ring 1 (piece.offsetted_count - 1)
          = some r)
      ∧ ∃ r, analyse_turn_wrt_piece.apply P piece = some r := by
  have hread : ∀ c : Nat, helper_count piece = (c : Int) → ∀ j, j < c →
      ∃ p, piece.robust_ring[piece.offsetted_count + j]? = some p := by
    intro c hc j hj
    have hlt : piece.offsetted_count + j < piece.robust_ring.length := by
      unfold helper_count at hc
      omega
    exact ⟨_, List.getElem?_eq_getElem hlt⟩
  have htake : ring_scan P (piece.robust_ring.take piece.offsetted_count) 1
      (piece.offsetted_count - 1)
      = ring_scan P piece.robust_ring 1 (piece.offsetted_count - 1) := by
    have hlen : (piece.robust_ring.take piece.offsetted_count).length
        = piece.offsetted_count := by
      rw [List.length_take]; omega
    have h := ring_scan_apply_append P
      (piece.robust_ring.take piece.offsetted_count)
      (piece.robust_ring.drop piece.offsetted_count)
    rw [List.take_append_drop, hlen] at h
    exact h.symm
  obtain ⟨r, hr, _⟩ := ring_scan_apply_total P piece hwf
  refine ⟨fun h => hread 4 (by simpa using h), fun h => hread 3 (by simpa using h),
    check_helper_segments_total P piece, htake, ⟨r, hr⟩,
    apply_total P piece hwf⟩

/-- Claim C20, witness: `side_piece` at the point `(8,5)`. -/
theorem ring_indexing_in_bounds_witness :
    ∃ r, analyse_turn_wrt_piece.apply ⟨8, 5⟩ side_piece = some r :=
  (ring_indexing_in_bounds ⟨8, 5⟩ side_piece (by decide)).2.2.2.2.2

end boost_geometry
